import Mathlib

/-!
Verification development for the pi-mono coding-agent runtime.

The pure algorithms of `packages/coding-agent/src/core/tools/edit-diff.ts`
and the outcome logic of `packages/coding-agent/src/core/tools/bash.ts` are
embedded shallowly (JS strings become `List Char`, JS numbers that may hold
`undefined`/`NaN` become an explicit `JsVal` type).  The tool-call scheduler,
session persistence and compaction engine are not part of the source tree;
they are modelled from the specification, as indicated on each definition.
-/

namespace PiMono

abbrev Str := List Char

/-! ## JS string primitives -/

/-- Whitespace characters removed by JavaScript's `String.prototype.trimEnd`
(WhiteSpace and LineTerminator code points of ECMA-262). -/
def isJsWhitespace (c : Char) : Bool :=
  let n := c.toNat
  (0x9 ≤ n && n ≤ 0xD) || n = 0x20 || n = 0xA0 || n = 0x1680 ||
  (0x2000 ≤ n && n ≤ 0x200A) || n = 0x2028 || n = 0x2029 ||
  n = 0x202F || n = 0x205F || n = 0x3000 || n = 0xFEFF

/-- JavaScript `line.trimEnd()` on a list of characters. -/
def trimEnd (l : Str) : Str :=
  (l.reverse.dropWhile isJsWhitespace).reverse

/-- JavaScript `s.split(sep)` for a single-character separator `sep`
(also the body of `content.split("\n")` in edit-diff.ts). -/
def splitOnChar (sep : Char) : Str → List Str
  | [] => [[]]
  | c :: t =>
    if c = sep then [] :: splitOnChar sep t
    else
      match splitOnChar sep t with
      | [] => [[c]]
      | l :: ls => (c :: l) :: ls

/-- Inverse of `splitOnChar`: `parts.join(sep)`. -/
def joinWithChar (sep : Char) : List Str → Str
  | [] => []
  | [l] => l
  | l :: ls => l ++ sep :: joinWithChar sep ls

/-- JavaScript `content.split("\n")`. -/
def splitLines : Str → List Str := splitOnChar (Char.ofNat 10)

/-- JavaScript `lines.join("\n")`. -/
def joinLines : List Str → Str := joinWithChar (Char.ofNat 10)

/-- JavaScript `hay.indexOf(needle)` for strings, as an `Option Nat`
(`none` stands for the JS return value `-1`). -/
def indexOfSub : Str → Str → Option Nat
  | hay, needle =>
    if needle.isPrefixOf hay then some 0
    else
      match hay with
      | [] => none
      | _ :: t => (indexOfSub t needle).map (· + 1)

/-- JavaScript number values that flow through edit-diff.ts: ordinary
numbers, `NaN`, and `undefined` (an out-of-range array read). -/
inductive JsVal
  | num (n : Int)
  | nan
  | jsUndefined
deriving DecidableEq, Repr

/-- JS `a + b` on two possibly-`undefined` numbers (any non-number operand
makes the result `NaN`). -/
def JsVal.add : JsVal → JsVal → JsVal
  | .num a, .num b => .num (a + b)
  | _, _ => .nan

/-- JS `a - b`. -/
def JsVal.sub : JsVal → JsVal → JsVal
  | .num a, .num b => .num (a - b)
  | _, _ => .nan

/-- JS array read `l[i]`: the element when `i` is in range, `undefined`
otherwise. -/
def jsIndexVal (l : List Nat) (i : Nat) : JsVal :=
  if h : i < l.length then .num (l.get ⟨i, h⟩) else .jsUndefined

/-- Coercion `ToIntegerOrInfinity` as it applies to a substring *start* argument:
`NaN` and `undefined` coerce to 0. -/
def JsVal.toIntOrZero : JsVal → Int
  | .num n => n
  | _ => 0

/-- JavaScript `s.substring(start, end)` (with `end` optional): both
indices are clamped to `[0, length]`, an omitted or `undefined` end means
the string length, and the two clamped indices are swapped if needed. -/
def jsSubstring (s : Str) (startV : JsVal) (endV : Option JsVal) : Str :=
  let len : Int := s.length
  let intStart : Int := startV.toIntOrZero
  let intEnd : Int :=
    match endV with
    | none => len
    | some .jsUndefined => len
    | some .nan => 0
    | some (.num n) => n
  let f := min (max intStart 0) len
  let e := min (max intEnd 0) len
  let lo := min f e
  let hi := max f e
  (s.take hi.toNat).drop lo.toNat

/-! ## edit-diff.ts: line endings -/

/-- The union type `"\r\n" | "\n"` returned by `detectLineEnding`. -/
inductive LineEnding
  | crlf
  | lf
deriving DecidableEq, Repr

/-- Embeds `detectLineEnding` (edit-diff.ts): compares the first index of `"\r\n"`
with the first index of `"\n"`. -/
def detectLineEnding (content : Str) : LineEnding :=
  let crlfIdx := indexOfSub content [Char.ofNat 13, Char.ofNat 10]
  let lfIdx := indexOfSub content [Char.ofNat 10]
  match lfIdx, crlfIdx with
  | none, _ => .lf
  | some _, none => .lf
  | some li, some ci => if ci < li then .crlf else .lf

/-- JavaScript `text.replace(/\r\n/g, "\n")`: global, left-to-right, non-overlapping. -/
def replaceCrlfWithLf : Str → Str
  | [] => []
  | [c] => [c]
  | c :: d :: t =>
    if c = Char.ofNat 13 && d = Char.ofNat 10 then Char.ofNat 10 :: replaceCrlfWithLf t
    else c :: replaceCrlfWithLf (d :: t)

/-- Embeds `normalizeToLF` (edit-diff.ts): `text.replace(/\r\n/g, "\n").replace(/\r/g, "\n")`. -/
def normalizeToLF (text : Str) : Str :=
  (replaceCrlfWithLf text).map (fun c => if c = Char.ofNat 13 then Char.ofNat 10 else c)

/-- JavaScript `text.replace(/\n/g, "\r\n")`. -/
def replaceLfWithCrlf : Str → Str
  | [] => []
  | c :: t =>
    if c = Char.ofNat 10 then Char.ofNat 13 :: Char.ofNat 10 :: replaceLfWithCrlf t
    else c :: replaceLfWithCrlf t

/-- Embeds `restoreLineEndings` (edit-diff.ts). -/
def restoreLineEndings (text : Str) (ending : LineEnding) : Str :=
  match ending with
  | .crlf => replaceLfWithCrlf text
  | .lf => text

/-- Uniform CRLF line breaks: every `\r` is immediately followed by `\n`
and every `\n` immediately preceded by `\r`. -/
def crlfUniform : Str → Bool
  | [] => true
  | [c] => !(c = Char.ofNat 13 || c = Char.ofNat 10)
  | c :: d :: t =>
    if c = Char.ofNat 13 then (d = Char.ofNat 10) && crlfUniform t
    else if c = Char.ofNat 10 then false
    else crlfUniform (d :: t)

/-! ## edit-diff.ts: fuzzy matching -/

/-- The character-for-character Unicode substitutions of
`normalizeForFuzzyMatch` (edit-diff.ts): smart quotes to ASCII quotes,
Unicode dashes to `-`, special spaces to a plain space. -/
def normChar (c : Char) : Char :=
  let n := c.toNat
  if n = 0x2018 || n = 0x2019 || n = 0x201A || n = 0x201B then Char.ofNat 39
  else if n = 0x201C || n = 0x201D || n = 0x201E || n = 0x201F then Char.ofNat 34
  else if n = 0x2010 || n = 0x2011 || n = 0x2012 || n = 0x2013 ||
          n = 0x2014 || n = 0x2015 || n = 0x2212 then Char.ofNat 45
  else if n = 0xA0 || (0x2002 ≤ n && n ≤ 0x200A) || n = 0x202F ||
          n = 0x205F || n = 0x3000 then Char.ofNat 32
  else c

/-- Embeds `normalizeForFuzzyMatch` (edit-diff.ts): strip trailing whitespace from
each line, then apply the 1:1 character substitutions. -/
def normalizeForFuzzyMatch (text : Str) : Str :=
  (joinLines ((splitLines text).map trimEnd)).map normChar

/-- Loop body of `buildNormToOrigPositionMap`: one entry per character of
the trimmed line, then (for every line but the last) one entry for the
`\n` position, with `origPos` advancing by the untrimmed line length. -/
def posMapGo : List Str → Nat → List Nat
  | [], _ => []
  | [line], p => (List.range (trimEnd line).length).map (p + ·)
  | line :: l2 :: rest, p =>
    (List.range (trimEnd line).length).map (p + ·) ++
      (p + line.length) :: posMapGo (l2 :: rest) (p + line.length + 1)

/-- Embeds `buildNormToOrigPositionMap` (edit-diff.ts):
`posMap[normalizedPos] = originalPos`. -/
def buildNormToOrigPositionMap (content : Str) : List Nat :=
  posMapGo (splitLines content) 0

/-- Embeds `FuzzyMatchResult` (edit-diff.ts).  `index` and `matchLength` are JS
numbers: in the degenerate fuzzy case the position-map read is out of
range, so `index` is `undefined` and `matchLength` is `NaN`. -/
structure FuzzyMatchResult where
  found : Bool
  index : JsVal
  matchLength : JsVal
  usedFuzzyMatch : Bool
  contentForReplacement : Str
deriving DecidableEq, Repr

/-- Embeds `fuzzyFindText` (edit-diff.ts): exact `indexOf` first, then a search in
the `normalizeForFuzzyMatch` space whose match position is mapped back to
the original content through `buildNormToOrigPositionMap`. -/
def fuzzyFindText (content oldText : Str) : FuzzyMatchResult :=
  match indexOfSub content oldText with
  | some exactIndex =>
    { found := true, index := .num exactIndex, matchLength := .num oldText.length,
      usedFuzzyMatch := false, contentForReplacement := content }
  | none =>
    let fuzzyContent := normalizeForFuzzyMatch content
    let fuzzyOldText := normalizeForFuzzyMatch oldText
    match indexOfSub fuzzyContent fuzzyOldText with
    | none =>
      { found := false, index := .num (-1), matchLength := .num 0,
        usedFuzzyMatch := false, contentForReplacement := content }
    | some fuzzyIndex =>
      let posMap := buildNormToOrigPositionMap content
      let origStart := jsIndexVal posMap fuzzyIndex
      let fuzzyEnd := fuzzyIndex + fuzzyOldText.length
      let origEnd : Int :=
        if 0 < fuzzyEnd ∧ fuzzyEnd ≤ posMap.length then
          (posMap.getD (fuzzyEnd - 1) 0 : Int) + 1
        else (content.length : Int)
      { found := true, index := origStart,
        matchLength := JsVal.sub (.num origEnd) origStart,
        usedFuzzyMatch := true, contentForReplacement := content }

/-- Embeds `stripBom` (edit-diff.ts), reduced to the text component. -/
def stripBom (content : Str) : Str :=
  match content with
  | c :: t => if c = Char.ofNat 0xFEFF then t else c :: t
  | [] => []

/-- The new-content expression of `computeEditDiff` (edit-diff.ts):
`baseContent.substring(0, index) + newText + baseContent.substring(index + matchLength)`
where `baseContent = matchResult.contentForReplacement`. -/
def editNewContent (content oldText newText : Str) : Str :=
  let r := fuzzyFindText content oldText
  jsSubstring r.contentForReplacement (.num 0) (some r.index) ++ newText ++
    jsSubstring r.contentForReplacement (JsVal.add r.index r.matchLength) none

/-- Occurrence split used by `computeEditDiff`'s uniqueness check:
`fuzzyContent.split(fuzzyOldText)` on full strings.  JS semantics: an empty
separator splits into single characters (so `"".split("")` is `[]`);
otherwise split on non-overlapping left-to-right occurrences.  The
recursion is driven by a fuel argument bounded by the string length, which
suffices because each found occurrence of a nonempty separator strictly
shortens the remaining string. -/
def jsSplitGo (sep : Str) : Nat → Str → List Str
  | 0, s => [s]
  | fuel + 1, s =>
    match indexOfSub s sep with
    | none => [s]
    | some i => s.take i :: jsSplitGo sep fuel (s.drop (i + sep.length))

def jsSplitStr (s sep : Str) : List Str :=
  if sep = [] then s.map ([·])
  else jsSplitGo sep s.length s

/-- Error outcomes of `computeEditDiff` (the messages interpolate the file
path and are not modelled). -/
inductive EditDiffError
  | notFound
  | notUnique (occurrences : Int)
  | noChange
deriving DecidableEq, Repr

/-- The pure core of `computeEditDiff` (edit-diff.ts): BOM strip, LF
normalization of all three inputs, fuzzy matching, occurrence uniqueness
check, replacement, and the no-change check. -/
def computeEditDiffCore (rawContent oldText newText : Str) :
    Except EditDiffError Str :=
  let content := stripBom rawContent
  let normalizedContent := normalizeToLF content
  let normalizedOldText := normalizeToLF oldText
  let normalizedNewText := normalizeToLF newText
  let matchResult := fuzzyFindText normalizedContent normalizedOldText
  if matchResult.found = false then .error .notFound
  else
    let fuzzyContent := normalizeForFuzzyMatch normalizedContent
    let fuzzyOldText := normalizeForFuzzyMatch normalizedOldText
    let occurrences : Int := (jsSplitStr fuzzyContent fuzzyOldText).length - 1
    if 1 < occurrences then .error (.notUnique occurrences)
    else
      let baseContent := matchResult.contentForReplacement
      let newContent :=
        jsSubstring baseContent (.num 0) (some matchResult.index) ++
          normalizedNewText ++
          jsSubstring baseContent (JsVal.add matchResult.index matchResult.matchLength) none
      if baseContent = newContent then .error .noChange
      else .ok newContent

/-! ## bash.ts: timeout and abort outcome logic -/

/-- Decimal digit character. -/
def digitChar (d : Nat) : Char :=
  match d with
  | 0 => '0' | 1 => '1' | 2 => '2' | 3 => '3' | 4 => '4'
  | 5 => '5' | 6 => '6' | 7 => '7' | 8 => '8' | 9 => '9'
  | _ => '?'

/-- Digit accumulation for the decimal rendering; the fuel argument is
bounded by the number itself, which suffices since `n / 10 < n` for
positive `n`. -/
def natToDecimalGo : Nat → Nat → Str
  | 0, _ => []
  | fuel + 1, n => if n = 0 then [] else natToDecimalGo fuel (n / 10) ++ [digitChar (n % 10)]

/-- Decimal rendering of a natural number (JS template-literal `${n}`). -/
def natToDecimal (n : Nat) : Str :=
  if n = 0 then ['0'] else natToDecimalGo n n

/-- Decimal rendering as a `String`. -/
def natDecimalStr (n : Nat) : String := String.mk (natToDecimal n)

/-- Events observable by `defaultBashOperations.exec` (bash.ts) when the
spawned process closes: whether the abort signal had fired, whether the
timeout timer had fired, and the process exit code (`none` = killed). -/
structure ExecEnv where
  aborted : Bool
  timerFired : Bool
  exitCode : Option Int
deriving DecidableEq, Repr

/-- What one `exec` run did: whether `killProcessTree` was invoked, and the
promise outcome (`error` = reject with that message, `ok` = resolve). -/
structure ExecOutcome where
  killedTree : Bool
  result : Except String (Option Int)
deriving Repr

/-- The timeout timer is armed only when a positive timeout is provided
(`if (timeout !== undefined && timeout > 0)` in bash.ts). -/
def timerArmed : Option Nat → Bool
  | some t => decide (0 < t)
  | none => false

/-- Outcome logic of `defaultBashOperations.exec` (bash.ts): the timer
handler sets `timedOut` and kills the process tree; the abort handler kills
the process tree; the `close` handler rejects with `"aborted"` if the
signal fired, else with `"timeout:N"` if the timer fired, else resolves
with the exit code. -/
def defaultBashExec (timeout : Option Nat) (env : ExecEnv) : ExecOutcome :=
  let timedOut := timerArmed timeout && env.timerFired
  { killedTree := timedOut || env.aborted
    result :=
      if env.aborted then .error "aborted"
      else if timedOut then
        .error ("timeout:" ++ natDecimalStr (timeout.getD 0))
      else .ok env.exitCode }

/-- Embeds `if (output) output += "\n\n"` (bash.ts catch handler). -/
def padOutput (output : String) : String :=
  if output ≠ "" then output ++ "\n\n" else output

/-- The `.catch` handler of `createBashTool.execute` (bash.ts): maps the
`"aborted"` rejection to a `"Command aborted"` error, a `"timeout:N"`
rejection to `"Command timed out after N seconds"` (recovering `N` with
`err.message.split(":")[1]`), and rethrows anything else (`none`). -/
def bashCatchMessage (output errMsg : String) : Option String :=
  if errMsg = "aborted" then some (padOutput output ++ "Command aborted")
  else if ("timeout:".toList).isPrefixOf errMsg.toList then
    let secs := String.mk ((splitOnChar (Char.ofNat 58) errMsg.toList).getD 1 [])
    some (padOutput output ++ "Command timed out after " ++ secs ++ " seconds")
  else none

/-- End-to-end outcome of `createBashTool.execute` for one run, given the
buffered output (truncation machinery, which is not involved in the
timeout/abort paths, is elided): the `.then` branch rejects on a non-zero
non-null exit code and resolves otherwise; the `.catch` branch rewrites
abort/timeout rejections as above. -/
def bashExecuteResult (timeout : Option Nat) (env : ExecEnv) (output : String) :
    Except String String :=
  match (defaultBashExec timeout env).result with
  | .ok code =>
    match code with
    | some c => if c ≠ 0 then .error (output ++ "\n\nCommand exited with code " ++ toString c)
                else .ok output
    | none => .ok output
  | .error m =>
    match bashCatchMessage output m with
    | some msg => .error msg
    | none => .error m

/-! ## Tool-call scheduler

The scheduler itself (`executeToolCalls` in packages/agent/src/agent-loop.ts)
is not part of the source tree; the definitions below are modelled from the
specification (§4.1) and the repository's implementation log (P0-#1), which
names the helpers `groupToolCallBatches`, `executeSingleToolCall` and
`executeToolCallBatchParallel`. -/

/-- A tool call of one model turn. -/
structure ToolCall where
  id : Nat
  toolName : String
deriving DecidableEq, Repr

/-- A tool-result message appended to the log. -/
structure ToolResultMsg where
  id : Nat
  content : String
  isError : Bool
deriving DecidableEq, Repr

/-- The `AgentTool` descriptor fields relevant to scheduling:
`sideEffects?: boolean` is optional in packages/agent types (`none` =
the flag is absent from the descriptor). -/
structure AgentToolDecl where
  name : String
  sideEffects : Option Bool
deriving DecidableEq, Repr

/-- Modelled from the spec: a tool may run concurrently only when it
explicitly declares `sideEffects: false`; an absent flag means the
conservative default (side effects assumed, never parallel). -/
def toolConcurrencySafe (t : AgentToolDecl) : Bool :=
  t.sideEffects == some false

/-- Name lookup in the tool registry. -/
def lookupTool (reg : List AgentToolDecl) (n : String) : Option AgentToolDecl :=
  reg.find? (fun t => t.name == n)

/-- Concurrency-safety of one call under a registry: unknown tools are
unsafe. -/
def callSafe (reg : List AgentToolDecl) (c : ToolCall) : Bool :=
  match lookupTool reg c.toolName with
  | some t => toolConcurrencySafe t
  | none => false

/-- The descriptor returned by `createBashTool` (bash.ts): it sets `name`,
`label`, `description`, `parameters` and `execute` but no `sideEffects`
field, so the flag is absent. -/
def bashToolDecl : AgentToolDecl :=
  { name := "bash", sideEffects := none }

/-- Modelled from the spec: `groupToolCallBatches` partitions the ordered
call list into maximal contiguous runs of concurrency-safe calls; every
unsafe call forms a singleton run. -/
def groupToolCallBatches (safe : ToolCall → Bool) : List ToolCall → List (List ToolCall)
  | [] => []
  | c :: rest =>
    let gs := groupToolCallBatches safe rest
    if safe c then
      match gs with
      | (d :: g) :: gs2 =>
        if safe d then (c :: d :: g) :: gs2 else [c] :: (d :: g) :: gs2
      | _ => [c] :: gs
    else [c] :: gs

/-- Modelled from the spec: a tool-level failure becomes an error result,
never an exception unwinding the scheduler. -/
def executeSingleToolCall (exec : ToolCall → Except String String) (c : ToolCall) :
    ToolResultMsg :=
  match exec c with
  | .ok s => { id := c.id, content := s, isError := false }
  | .error e => { id := c.id, content := e, isError := true }

/-- One run's calls paired with their completion times (the call's latency
under `dur`). -/
def executeWithCompletion (exec : ToolCall → Except String String)
    (dur : ToolCall → Nat) (batch : List ToolCall) : List (Nat × ToolResultMsg) :=
  batch.map (fun c => (dur c, executeSingleToolCall exec c))

/-- Stable insertion by completion time. -/
def insertByTime (x : Nat × ToolResultMsg) :
    List (Nat × ToolResultMsg) → List (Nat × ToolResultMsg)
  | [] => [x]
  | y :: t => if x.1 < y.1 then x :: y :: t else y :: insertByTime x t

/-- The order in which the individual executions of one parallel run
complete (ascending completion time; ties keep issue order). -/
def completionOrder (tasks : List (Nat × ToolResultMsg)) : List ToolResultMsg :=
  (tasks.foldr insertByTime []).map Prod.snd

/-- Modelled from the spec: `executeToolCallBatchParallel` gathers one
run's results with `Promise.all`, which yields them indexed by the input
position — not by completion time. -/
def executeToolCallBatchParallel (exec : ToolCall → Except String String)
    (dur : ToolCall → Nat) (batch : List ToolCall) : List ToolResultMsg :=
  (executeWithCompletion exec dur batch).map Prod.snd

/-- Modelled from the spec: the full scheduler — group, execute runs left
to right, concatenate the per-run result lists in order. -/
def executeToolCalls (safe : ToolCall → Bool) (exec : ToolCall → Except String String)
    (dur : ToolCall → Nat) (calls : List ToolCall) : List ToolResultMsg :=
  ((groupToolCallBatches safe calls).map (executeToolCallBatchParallel exec dur)).flatten

/-- Modelled from the spec: the execution timeline — every call of a run
starts when the run starts, the next run starts only at the latest finish
time of the current run (the barrier).  Entries are
`(call, startTime, finishTime)`. -/
def runSchedule (dur : ToolCall → Nat) :
    List (List ToolCall) → Nat → List (List (ToolCall × Nat × Nat))
  | [], _ => []
  | g :: gs, t =>
    let timed := g.map (fun c => (c, t, t + dur c))
    let tEnd := (g.map (fun c => t + dur c)).foldr max t
    timed :: runSchedule dur gs tEnd

/-- All calls of a run target concurrency-safe tools. -/
def allSafeRun (safe : ToolCall → Bool) (g : List ToolCall) : Bool :=
  g.all safe

/-- Modelled from the spec: the error result recorded for a call that never
started because of cancellation. -/
def cancelledResult (c : ToolCall) : ToolResultMsg :=
  { id := c.id, content := "cancelled", isError := true }

/-- Whether the cancellation signal is observed before starting run `i`. -/
def cancelSignalled (cancelAt : Option Nat) (i : Nat) : Bool :=
  match cancelAt with
  | some k => decide (k ≤ i)
  | none => false

/-- Modelled from the spec: run execution under a cancellation signal that
is observed at the checkpoint before run `cancelAt` — earlier runs execute
and return their results, no later run starts, and every call of a
not-started run yields a `cancelled` error result.  Also returns the
number of runs that started. -/
def executeRunsCancellable (exec : ToolCall → Except String String)
    (cancelAt : Option Nat) : List (List ToolCall) → Nat → List ToolResultMsg × Nat
  | [], _ => ([], 0)
  | g :: gs, i =>
    if cancelSignalled cancelAt i then
      (((g :: gs).flatten).map cancelledResult, 0)
    else
      let r := executeRunsCancellable exec cancelAt gs (i + 1)
      (g.map (executeSingleToolCall exec) ++ r.1, r.2 + 1)

/-- Modelled from the spec: the scheduler under cancellation. -/
def executeToolCallsCancellable (safe : ToolCall → Bool)
    (exec : ToolCall → Except String String) (cancelAt : Option Nat)
    (calls : List ToolCall) : List ToolResultMsg × Nat :=
  executeRunsCancellable exec cancelAt (groupToolCallBatches safe calls) 0

/-! Concrete scheduler instances used by the spec's scenarios. -/

/-- A read-only tool marked `sideEffects: false` (read/grep/find/ls in the
implementation log). -/
def readTool : AgentToolDecl := { name := "read", sideEffects := some false }

/-- A side-effecting tool that keeps the default (absent flag). -/
def writeTool : AgentToolDecl := { name := "write", sideEffects := none }

/-- Registry for the scenarios. -/
def exampleRegistry : List AgentToolDecl := [readTool, writeTool, bashToolDecl]

def readACall : ToolCall := { id := 0, toolName := "read" }
def readBCall : ToolCall := { id := 1, toolName := "read" }
def writeCCall : ToolCall := { id := 2, toolName := "write" }
def readDCall : ToolCall := { id := 3, toolName := "read" }

/-- The scenario batch `[readA(safe), readB(safe), writeC(unsafe), readD(safe)]`. -/
def exampleBatch : List ToolCall := [readACall, readBCall, writeCCall, readDCall]

/-- Four calls to one concurrency-safe tool (the latency scenario). -/
def latencyBatch : List ToolCall :=
  [{ id := 0, toolName := "read" }, { id := 1, toolName := "read" },
   { id := 2, toolName := "read" }, { id := 3, toolName := "read" }]

/-- The artificial latencies `[30ms, 10ms, 20ms, 5ms]` of the spec's
ordering scenario, keyed by call id. -/
def latencyOf (c : ToolCall) : Nat :=
  match c.id with
  | 0 => 30 | 1 => 10 | 2 => 20 | _ => 5

/-! ## Compaction engine

`compaction.ts` is not part of the source tree; the definitions are
modelled from the specification (§4.3) and the implementation log (P0-#7,
P1-#6). -/

/-- Shape of `CompactionDetails` as implemented (implementation log P1-#6: the
interface carries `pendingTasks?: string[]` and `decisions?: string[]`;
`readFiles`/`modifiedFiles` are the file-tracking lists).  The optional
fields are `none` when absent. -/
structure CompactionDetails where
  readFiles : List String
  modifiedFiles : List String
  pendingTasks : Option (List String)
  decisions : Option (List String)
deriving DecidableEq, Repr

/-- Values of `strategy: llm | fallback` of a Compaction entry. -/
inductive CompactionStrategy
  | llm
  | fallback
deriving DecidableEq, Repr

/-- A produced compaction result. -/
structure CompactionResult where
  summary : String
  details : CompactionDetails
  strategy : CompactionStrategy
deriving DecidableEq, Repr

/-- Modelled from the spec: the data already available to the compaction
engine when summarization starts — the user messages of the selected
window, every tool name invoked in it, and the directly observed file
tracking. -/
structure CompactionPrep where
  userMessages : List String
  toolCallNames : List String
  readFiles : List String
  modifiedFiles : List String
deriving DecidableEq, Repr

/-- The fallback takes the first 200 characters of each user message
(implementation log P0-#7). -/
def fallbackUserPrefixLength : Nat := 200

/-- Modelled from the spec: `compactFallback` (compaction.ts) — a
rule-based summary built without any model call: the 200-character prefix
of each user message, the list of every tool name invoked, and the same
readFiles/modifiedFiles tracking as the primary path. -/
def compactFallback (prep : CompactionPrep) : CompactionResult :=
  { summary :=
      String.intercalate "\n"
        (prep.userMessages.map (fun m => String.mk (m.toList.take fallbackUserPrefixLength))) ++
      "\nTools used: " ++ String.intercalate ", " prep.toolCallNames
    details :=
      { readFiles := prep.readFiles
        modifiedFiles := prep.modifiedFiles
        pendingTasks := none
        decisions := none }
    strategy := .fallback }

/-- Modelled from the spec: `parseSummaryStructure` (compaction.ts) —
extract structured decision/pending-task markers from the model-produced
summary, as plain strings. -/
def parseSummaryStructure (summary : String) : List String × List String :=
  let ls := summary.splitOn "\n"
  (ls.filterMap (fun l => if l.startsWith "DECISION: " then some (l.drop 10) else none),
   ls.filterMap (fun l => if l.startsWith "TODO: " then some (l.drop 6) else none))

/-- Modelled from the spec: `_runAutoCompaction` with the P0-#7 catch
block — try the model once; on failure fall back to `compactFallback`.
The second component counts the model calls made. -/
def runAutoCompaction (model : CompactionPrep → Option String)
    (prep : CompactionPrep) : CompactionResult × Nat :=
  match model prep with
  | some s =>
    ({ summary := s
       details :=
         { readFiles := prep.readFiles
           modifiedFiles := prep.modifiedFiles
           pendingTasks := some (parseSummaryStructure s).2
           decisions := some (parseSummaryStructure s).1 }
       strategy := .llm }, 1)
  | none => (compactFallback prep, 1)

/-! ## Persisted JSON shape of CompactionDetails (spec §6: one JSON record
per entry line). -/

/-- A JSON value (the fragment needed for the details payload). -/
inductive Jx
  | str (s : String)
  | arr (xs : List Jx)
  | obj (fields : List (String × Jx))

/-- A JSON array of strings. -/
def strArr (l : List String) : Jx := .arr (l.map .str)

/-- JSON serialization of `CompactionDetails` (JSON.stringify omits absent
optional fields). -/
def detailsToJson (d : CompactionDetails) : Jx :=
  .obj ([("readFiles", strArr d.readFiles), ("modifiedFiles", strArr d.modifiedFiles)] ++
    (match d.pendingTasks with
     | some p => [("pendingTasks", strArr p)]
     | none => []) ++
    (match d.decisions with
     | some ds => [("decisions", strArr ds)]
     | none => []))

/-- Is this JSON value a string? -/
def isStringJx : Jx → Bool
  | .str _ => true
  | _ => false

/-- Is this JSON value an object carrying both a `description` and a
`rationale` field (the spec's claimed decision-record shape)? -/
def isDecisionRecordJx : Jx → Bool
  | .obj fs => fs.any (fun f => f.1 == "description") && fs.any (fun f => f.1 == "rationale")
  | _ => false

/-- Field lookup in a JSON object. -/
def jxField (j : Jx) (n : String) : Option Jx :=
  match j with
  | .obj fs => (fs.find? (fun f => f.1 == n)).map Prod.snd
  | _ => none

/-- The claim's shape requirement on the persisted `decisions` field:
every element is a `{description, rationale}` record. -/
def decisionsAllRecords (j : Jx) : Bool :=
  match jxField j "decisions" with
  | some (.arr xs) => xs.all isDecisionRecordJx
  | _ => false

/-- One persisted field, when present, is an array of plain strings. -/
def fieldIsStringArray (j : Jx) (n : String) : Bool :=
  match jxField j n with
  | none => true
  | some (.arr xs) => xs.all isStringJx
  | some _ => false

/-- The implemented shape of the persisted details: all four fields are
arrays of plain strings whenever present. -/
def detailsShapeOk (j : Jx) : Bool :=
  fieldIsStringArray j "readFiles" && fieldIsStringArray j "modifiedFiles" &&
  fieldIsStringArray j "pendingTasks" && fieldIsStringArray j "decisions"

/-! ## session-search.ts: CompactionEntry search text (real source). -/

/-- The compaction-entry fields used by `buildCompactionSearchText`. -/
structure CompactionEntry where
  id : String
  timestamp : String
  summary : String
  details : Option CompactionDetails

/-- Embeds `buildCompactionSearchText` (session-search.ts): the summary followed
by the `Modified files` / `Read files` / `Pending tasks` / `Decisions`
fragments, each a comma-join of the corresponding string list, joined with
newlines. -/
def buildCompactionSearchText (comp : CompactionEntry) : String :=
  String.intercalate "\n"
    ([comp.summary] ++
      match comp.details with
      | none => []
      | some d =>
        ["Modified files: " ++ String.intercalate ", " d.modifiedFiles,
         "Read files: " ++ String.intercalate ", " d.readFiles] ++
        (match d.pendingTasks with
         | some p => ["Pending tasks: " ++ String.intercalate ", " p]
         | none => []) ++
        (match d.decisions with
         | some ds => ["Decisions: " ++ String.intercalate ", " ds]
         | none => []))

/-! ## Session log persistence

`session-manager.ts` is not part of the source tree; modelled from the
specification (§4.2 durability contract) and the implementation log
(P1-#5: a user message entering state is flushed immediately). -/

/-- A log entry of the session file. -/
inductive LogEntry
  | user (content : String)
  | assistant (content : String)
  | toolResult (content : String)
deriving DecidableEq, Repr

/-- Durable (persisted) entries versus the in-memory write buffer, which a
crash discards. -/
structure SessionPersistState where
  persisted : List LogEntry
  buffered : List LogEntry
deriving DecidableEq, Repr

/-- Modelled from the spec: `_persist` with the P1-#5 patch — accepting a
user message appends it and immediately flushes the whole buffer to disk. -/
def persistUserMessage (st : SessionPersistState) (m : String) : SessionPersistState :=
  { persisted := st.persisted ++ st.buffered ++ [.user m], buffered := [] }

/-- A crash followed by a restart: only persisted entries survive. -/
def crashReload (st : SessionPersistState) : SessionPersistState :=
  { persisted := st.persisted, buffered := [] }

/-- The current tip of the reloaded log. -/
def sessionTip (st : SessionPersistState) : Option LogEntry :=
  (st.persisted ++ st.buffered).getLast?

/-- Modelled from the spec: the state the agent loop is in when it issues
the model call for a freshly accepted user message — persistence happens
first. -/
def stateAtModelCall (st : SessionPersistState) (m : String) : SessionPersistState :=
  persistUserMessage st m

/-! ## Supporting lemmas: characters and substring search -/

theorem list_map_id_of {f : Char → Char} {s : Str} (h : ∀ c ∈ s, f c = c) :
    s.map f = s := by
  induction s with
  | nil => rfl
  | cons c t ih =>
    simp only [List.map_cons, List.cons.injEq]
    exact ⟨h c (by simp), ih (fun d hd => h d (by simp [hd]))⟩

theorem isPrefixOf_mem {n h : Str} (hp : n.isPrefixOf h = true) :
    ∀ c ∈ n, c ∈ h := by
  induction n generalizing h with
  | nil => simp
  | cons a as ih =>
    cases h with
    | nil => simp [List.isPrefixOf] at hp
    | cons b bs =>
      simp only [List.isPrefixOf, Bool.and_eq_true, beq_iff_eq] at hp
      intro c hc
      rcases List.mem_cons.mp hc with rfl | hc
      · simp [hp.1]
      · exact List.mem_cons_of_mem _ (ih hp.2 c hc)

theorem indexOfSub_mem {h n : Str} {i : Nat} (hs : indexOfSub h n = some i) :
    ∀ c ∈ n, c ∈ h := by
  induction h generalizing i with
  | nil =>
    rw [indexOfSub] at hs
    by_cases hp : n.isPrefixOf ([] : Str) = true
    · exact fun c hc => isPrefixOf_mem hp c hc
    · simp [hp] at hs
  | cons a t ih =>
    rw [indexOfSub] at hs
    by_cases hp : n.isPrefixOf (a :: t) = true
    · exact fun c hc => isPrefixOf_mem hp c hc
    · simp only [hp, if_false] at hs
      rcases Option.map_eq_some'.mp hs with ⟨j, hj, _⟩
      exact fun c hc => List.mem_cons_of_mem _ (ih hj c hc)

theorem indexOfSub_none_of_not_mem {h n : Str} {c : Char}
    (hcn : c ∈ n) (hch : c ∉ h) : indexOfSub h n = none := by
  cases he : indexOfSub h n with
  | none => rfl
  | some i => exact absurd (indexOfSub_mem he c hcn) hch

/-! ## Supporting lemmas: line-ending round trip (C10) -/

theorem replaceCrlfWithLf_of_no_cr {s : Str} (h : Char.ofNat 13 ∉ s) :
    replaceCrlfWithLf s = s := by
  induction s using replaceCrlfWithLf.induct with
  | case1 => rfl
  | case2 c => rfl
  | case3 c d t hcd ih =>
    rw [replaceCrlfWithLf, if_pos hcd]
    exfalso
    simp only [Bool.and_eq_true, decide_eq_true_eq] at hcd
    exact h (by simp [hcd.1])
  | case4 c d t hcd ih =>
    rw [replaceCrlfWithLf, if_neg hcd]
    rw [ih (fun hm => h (List.mem_cons_of_mem _ hm))]

theorem normalizeToLF_of_no_cr {s : Str} (h : Char.ofNat 13 ∉ s) :
    normalizeToLF s = s := by
  rw [normalizeToLF, replaceCrlfWithLf_of_no_cr h]
  exact list_map_id_of (fun c hc => by
    have : c ≠ Char.ofNat 13 := fun he => h (he ▸ hc)
    simp [this])

theorem indexOfSub_of_prefixOf {h n : Str} (hp : n.isPrefixOf h = true) :
    indexOfSub h n = some 0 := by
  cases h with
  | nil => rw [indexOfSub, if_pos hp]
  | cons a t => rw [indexOfSub, if_pos hp]

theorem indexOfSub_cons_of_not_prefixOf {c : Char} {t n : Str}
    (hp : n.isPrefixOf (c :: t) = false) :
    indexOfSub (c :: t) n = (indexOfSub t n).map (· + 1) := by
  rw [indexOfSub, if_neg (by simp [hp])]

theorem isPrefixOf_cons_ne {a c : Char} {n h : Str} (hne : ¬a = c) :
    (a :: n).isPrefixOf (c :: h) = false := by
  simp [List.isPrefixOf, fun he : a = c => hne he]

theorem crlfUniform_singleton {c : Char} (h : crlfUniform [c] = true) :
    ¬c = Char.ofNat 13 ∧ ¬c = Char.ofNat 10 := by
  simpa [crlfUniform] using h

theorem crlfUniform_cons_cr {d : Char} {t : Str}
    (h : crlfUniform (Char.ofNat 13 :: d :: t) = true) :
    d = Char.ofNat 10 ∧ crlfUniform t = true := by
  rw [crlfUniform, if_pos rfl] at h
  simpa using h

theorem crlfUniform_cons_lf_false (d : Char) (t : Str) :
    crlfUniform (Char.ofNat 10 :: d :: t) = false := by
  rw [crlfUniform, if_neg (by decide), if_pos rfl]

theorem crlfUniform_cons_other {c d : Char} {t : Str} (h1 : ¬c = Char.ofNat 13)
    (h2 : ¬c = Char.ofNat 10) :
    crlfUniform (c :: d :: t) = crlfUniform (d :: t) := by
  rw [crlfUniform, if_neg h1, if_neg h2]

theorem replaceCrlfWithLf_cons_cr (t : Str) :
    replaceCrlfWithLf (Char.ofNat 13 :: Char.ofNat 10 :: t) =
      Char.ofNat 10 :: replaceCrlfWithLf t := by
  rw [replaceCrlfWithLf, if_pos (by decide)]

theorem replaceCrlfWithLf_cons_other {c d : Char} {t : Str} (h1 : ¬c = Char.ofNat 13) :
    replaceCrlfWithLf (c :: d :: t) = c :: replaceCrlfWithLf (d :: t) := by
  rw [replaceCrlfWithLf, if_neg (by simp [h1])]

theorem crlfUniform_no_cr_after {s : Str} (h : crlfUniform s = true) :
    Char.ofNat 13 ∉ replaceCrlfWithLf s := by
  induction s using crlfUniform.induct with
  | case1 => simp [replaceCrlfWithLf]
  | case2 c =>
    have h2 := crlfUniform_singleton h
    rw [show replaceCrlfWithLf [c] = [c] from rfl]
    intro hm
    exact h2.1 (List.mem_singleton.mp hm).symm
  | case3 d t ih =>
    obtain ⟨hd, ht⟩ := crlfUniform_cons_cr h
    subst hd
    rw [replaceCrlfWithLf_cons_cr]
    intro hm
    rcases List.mem_cons.mp hm with he | hm2
    · exact absurd he (by decide)
    · exact ih ht hm2
  | case4 d t hne =>
    rw [crlfUniform_cons_lf_false] at h
    exact absurd h (by decide)
  | case5 c d t h1 h2 ih =>
    rw [crlfUniform_cons_other h1 h2] at h
    rw [replaceCrlfWithLf_cons_other h1]
    intro hm
    rcases List.mem_cons.mp hm with he | hm2
    · exact h1 he.symm
    · exact ih h hm2

theorem crlf_roundtrip {s : Str} (h : crlfUniform s = true) :
    replaceLfWithCrlf (replaceCrlfWithLf s) = s := by
  induction s using crlfUniform.induct with
  | case1 => rfl
  | case2 c =>
    have h2 := crlfUniform_singleton h
    rw [show replaceCrlfWithLf [c] = [c] from rfl]
    rw [replaceLfWithCrlf, if_neg h2.2, show replaceLfWithCrlf [] = ([] : Str) from rfl]
  | case3 d t ih =>
    obtain ⟨hd, ht⟩ := crlfUniform_cons_cr h
    subst hd
    rw [replaceCrlfWithLf_cons_cr]
    rw [replaceLfWithCrlf, if_pos rfl, ih ht]
  | case4 d t hne =>
    rw [crlfUniform_cons_lf_false] at h
    exact absurd h (by decide)
  | case5 c d t h1 h2 ih =>
    rw [crlfUniform_cons_other h1 h2] at h
    rw [replaceCrlfWithLf_cons_other h1]
    rw [replaceLfWithCrlf, if_neg h2, ih h]

theorem crlfUniform_no_lf_no_cr {s : Str} (h : crlfUniform s = true)
    (hlf : Char.ofNat 10 ∉ s) : Char.ofNat 13 ∉ s := by
  induction s using crlfUniform.induct with
  | case1 => simp
  | case2 c =>
    have h2 := crlfUniform_singleton h
    intro hm
    exact h2.1 (List.mem_singleton.mp hm).symm
  | case3 d t ih =>
    obtain ⟨hd, ht⟩ := crlfUniform_cons_cr h
    subst hd
    exact absurd (by simp : Char.ofNat 10 ∈ Char.ofNat 13 :: Char.ofNat 10 :: t) hlf
  | case4 d t hne =>
    rw [crlfUniform_cons_lf_false] at h
    exact absurd h (by decide)
  | case5 c d t h1 h2 ih =>
    rw [crlfUniform_cons_other h1 h2] at h
    intro hm
    rcases List.mem_cons.mp hm with he | hm2
    · exact h1 he.symm
    · exact ih h (fun hm3 => hlf (List.mem_cons_of_mem _ hm3)) hm2

theorem detect_crlf {s : Str} (h : crlfUniform s = true)
    (hlf : Char.ofNat 10 ∈ s) : detectLineEnding s = .crlf := by
  induction s using crlfUniform.induct with
  | case1 => simp at hlf
  | case2 c =>
    have h2 := crlfUniform_singleton h
    exact absurd (List.mem_singleton.mp hlf).symm h2.2
  | case3 d t ih =>
    obtain ⟨hd, ht⟩ := crlfUniform_cons_cr h
    subst hd
    have e1 : indexOfSub (Char.ofNat 13 :: Char.ofNat 10 :: t)
        [Char.ofNat 13, Char.ofNat 10] = some 0 :=
      indexOfSub_of_prefixOf (by simp [List.isPrefixOf])
    have e2 : indexOfSub (Char.ofNat 13 :: Char.ofNat 10 :: t) [Char.ofNat 10] = some 1 := by
      rw [indexOfSub_cons_of_not_prefixOf (isPrefixOf_cons_ne (by decide)),
        indexOfSub_of_prefixOf (by simp [List.isPrefixOf])]
      rfl
    rw [detectLineEnding, e1, e2]
    show (if 0 < 1 then LineEnding.crlf else LineEnding.lf) = LineEnding.crlf
    rw [if_pos (by omega)]
  | case4 d t hne =>
    rw [crlfUniform_cons_lf_false] at h
    exact absurd h (by decide)
  | case5 c d t h1 h2 ih =>
    rw [crlfUniform_cons_other h1 h2] at h
    have hlf2 : Char.ofNat 10 ∈ d :: t := by
      rcases List.mem_cons.mp hlf with he | hm
      · exact absurd he.symm h2
      · exact hm
    have hdet := ih h hlf2
    have g1 : indexOfSub (c :: d :: t) [Char.ofNat 13, Char.ofNat 10]
        = (indexOfSub (d :: t) [Char.ofNat 13, Char.ofNat 10]).map (· + 1) :=
      indexOfSub_cons_of_not_prefixOf (isPrefixOf_cons_ne (fun he => h1 he.symm))
    have g2 : indexOfSub (c :: d :: t) [Char.ofNat 10]
        = (indexOfSub (d :: t) [Char.ofNat 10]).map (· + 1) :=
      indexOfSub_cons_of_not_prefixOf (isPrefixOf_cons_ne (fun he => h2 he.symm))
    rw [detectLineEnding] at hdet
    cases hL : indexOfSub (d :: t) [Char.ofNat 10] with
    | none => rw [hL] at hdet; simp at hdet
    | some li =>
      cases hC : indexOfSub (d :: t) [Char.ofNat 13, Char.ofNat 10] with
      | none =>
        rw [hL, hC] at hdet
        exact absurd (show LineEnding.lf = LineEnding.crlf from hdet) (by decide)
      | some ci =>
        rw [hL, hC] at hdet
        have hdet2 : (if ci < li then LineEnding.crlf else LineEnding.lf)
            = LineEnding.crlf := hdet
        have hci : ci < li := by
          by_contra hnot
          rw [if_neg hnot] at hdet2
          exact absurd hdet2 (by decide)
        rw [detectLineEnding, g1, g2, hL, hC]
        simp only [Option.map_some']
        show (if ci + 1 < li + 1 then LineEnding.crlf else LineEnding.lf) = LineEnding.crlf
        rw [if_pos (by omega)]

/-! ## Claim C10 -/

/-- C10: for every string with uniform line endings — either every line
break is CRLF, or the string contains no carriage return at all —
round-tripping through line-ending normalization is the identity:
`restoreLineEndings (normalizeToLF s) (detectLineEnding s) = s`. -/
theorem claim_C10_lineEnding_roundtrip (s : Str)
    (h : crlfUniform s = true ∨ Char.ofNat 13 ∉ s) :
    restoreLineEndings (normalizeToLF s) (detectLineEnding s) = s := by
  rcases h with hu | hr
  · by_cases hlf : Char.ofNat 10 ∈ s
    · rw [detect_crlf hu hlf]
      have hnorm : normalizeToLF s = replaceCrlfWithLf s := by
        rw [normalizeToLF]
        exact list_map_id_of (fun c hc => by
          have hne : ¬c = Char.ofNat 13 := fun he => (crlfUniform_no_cr_after hu) (he ▸ hc)
          simp [hne])
      rw [hnorm]
      exact crlf_roundtrip hu
    · have hr2 : Char.ofNat 13 ∉ s := crlfUniform_no_lf_no_cr hu hlf
      rw [normalizeToLF_of_no_cr hr2]
      have hlfidx : indexOfSub s [Char.ofNat 10] = none :=
        indexOfSub_none_of_not_mem (by simp) hlf
      rw [detectLineEnding, hlfidx]
      rfl
  · rw [normalizeToLF_of_no_cr hr]
    have hcr : indexOfSub s [Char.ofNat 13, Char.ofNat 10] = none :=
      indexOfSub_none_of_not_mem (by simp) hr
    rw [detectLineEnding, hcr]
    cases hL : indexOfSub s [Char.ofNat 10] with
    | none => rfl
    | some li => rfl

/-- Witness for C10 at the concrete CRLF string `"a\r\nb"`. -/
theorem claim_C10_witness :
    (crlfUniform ['a', Char.ofNat 13, Char.ofNat 10, 'b'] = true ∨
      Char.ofNat 13 ∉ (['a', Char.ofNat 13, Char.ofNat 10, 'b'] : Str)) ∧
    restoreLineEndings (normalizeToLF ['a', Char.ofNat 13, Char.ofNat 10, 'b'])
      (detectLineEnding ['a', Char.ofNat 13, Char.ofNat 10, 'b']) =
      ['a', Char.ofNat 13, Char.ofNat 10, 'b'] :=
  ⟨Or.inl (by decide),
   claim_C10_lineEnding_roundtrip _ (Or.inl (by decide))⟩

/-! ## Supporting lemmas: bounds for the fuzzy matcher (C9) -/

theorem isPrefixOf_length_le {n h : Str} (hp : n.isPrefixOf h = true) :
    n.length ≤ h.length := by
  induction n generalizing h with
  | nil => simp
  | cons a as ih =>
    cases h with
    | nil => simp [List.isPrefixOf] at hp
    | cons b bs =>
      simp only [List.isPrefixOf, Bool.and_eq_true] at hp
      simpa using ih hp.2

theorem indexOfSub_bound {h n : Str} {i : Nat} (hs : indexOfSub h n = some i) :
    i + n.length ≤ h.length := by
  induction h generalizing i with
  | nil =>
    rw [indexOfSub] at hs
    by_cases hp : n.isPrefixOf ([] : Str) = true
    · have hlen := isPrefixOf_length_le hp
      rw [if_pos hp] at hs
      injection hs with hi
      simp only [List.length_nil, Nat.le_zero] at hlen
      simp [← hi, hlen]
    · simp [hp] at hs
  | cons a t ih =>
    rw [indexOfSub] at hs
    by_cases hp : n.isPrefixOf (a :: t) = true
    · have hlen := isPrefixOf_length_le hp
      rw [if_pos hp] at hs
      injection hs with hi
      omega
    · rw [if_neg hp] at hs
      rcases Option.map_eq_some'.mp hs with ⟨j, hj, he⟩
      have := ih hj
      simp only [List.length_cons]
      omega

theorem indexOfSub_nil_needle (h : Str) : indexOfSub h [] = some 0 := by
  cases h with
  | nil => rw [indexOfSub]; simp [List.isPrefixOf]
  | cons a t => rw [indexOfSub]; simp [List.isPrefixOf]

theorem dropWhile_length_le (p : Char → Bool) (l : Str) :
    (l.dropWhile p).length ≤ l.length := by
  induction l with
  | nil => simp
  | cons a t ih =>
    cases hp : p a
    · simp [List.dropWhile, hp]
    · simp only [List.dropWhile, hp]
      calc (t.dropWhile p).length ≤ t.length := ih
        _ ≤ (a :: t).length := by simp

theorem trimEnd_length_le (l : Str) : (trimEnd l).length ≤ l.length := by
  rw [trimEnd]
  simp only [List.length_reverse]
  calc (l.reverse.dropWhile isJsWhitespace).length
      ≤ l.reverse.length := dropWhile_length_le _ _
    _ = l.length := List.length_reverse l

theorem splitOnChar_ne_nil (sep : Char) (s : Str) : splitOnChar sep s ≠ [] := by
  cases s with
  | nil => simp [splitOnChar]
  | cons c t =>
    rw [splitOnChar]
    by_cases hc : c = sep
    · simp [hc]
    · simp only [hc, if_false]
      cases h : splitOnChar sep t <;> simp

theorem joinWithChar_splitOnChar (sep : Char) (s : Str) :
    joinWithChar sep (splitOnChar sep s) = s := by
  induction s with
  | nil => rfl
  | cons c t ih =>
    rw [splitOnChar]
    by_cases hc : c = sep
    · rw [if_pos hc]
      cases h : splitOnChar sep t with
      | nil => exact absurd h (splitOnChar_ne_nil sep t)
      | cons l ls =>
        rw [h] at ih
        show [] ++ sep :: joinWithChar sep (l :: ls) = c :: t
        rw [ih, hc]
        rfl
    · rw [if_neg hc]
      cases h : splitOnChar sep t with
      | nil => exact absurd h (splitOnChar_ne_nil sep t)
      | cons l ls =>
        rw [h] at ih
        cases ls with
        | nil =>
          have ih2 : l = t := ih
          rw [show joinWithChar sep [c :: l] = c :: l from rfl, ih2]
        | cons l2 ls2 =>
          have ih2 : l ++ sep :: joinWithChar sep (l2 :: ls2) = t := ih
          rw [show joinWithChar sep ((c :: l) :: l2 :: ls2)
              = (c :: l) ++ sep :: joinWithChar sep (l2 :: ls2) from rfl]
          rw [List.cons_append, ih2]

theorem joinLines_splitLines (s : Str) : joinLines (splitLines s) = s :=
  joinWithChar_splitOnChar (Char.ofNat 10) s

/-! ## Supporting lemmas: the position map (C9) -/

theorem joinLines_cons_cons (a b : Str) (ls : List Str) :
    joinLines (a :: b :: ls) = a ++ Char.ofNat 10 :: joinLines (b :: ls) := rfl

theorem posMapGo_length (ls : List Str) (p : Nat) :
    (posMapGo ls p).length = (joinLines (ls.map trimEnd)).length := by
  induction ls, p using posMapGo.induct with
  | case1 p => rfl
  | case2 line p => simp [posMapGo, joinLines, joinWithChar]
  | case3 line l2 rest p ih =>
    rw [posMapGo]
    have hj : joinLines ((line :: l2 :: rest).map trimEnd)
        = trimEnd line ++ Char.ofNat 10 :: joinLines ((l2 :: rest).map trimEnd) := by
      simp only [List.map_cons]
      exact joinLines_cons_cons _ _ _
    rw [hj]
    simp only [List.length_append, List.length_cons, List.length_map, List.length_range]
    omega

theorem posMapGo_mem_ge {ls : List Str} {p x : Nat} (hx : x ∈ posMapGo ls p) : p ≤ x := by
  induction ls, p using posMapGo.induct with
  | case1 p => simp [posMapGo] at hx
  | case2 line p =>
    simp only [posMapGo, List.mem_map, List.mem_range] at hx
    obtain ⟨j, hj, rfl⟩ := hx
    omega
  | case3 line l2 rest p ih =>
    rw [posMapGo] at hx
    rcases List.mem_append.mp hx with h1 | h2
    · simp only [List.mem_map, List.mem_range] at h1
      obtain ⟨j, hj, rfl⟩ := h1
      omega
    · rcases List.mem_cons.mp h2 with rfl | h3
      · omega
      · have := ih h3
        omega

theorem posMapGo_mem_lt {ls : List Str} {p x : Nat} (hx : x ∈ posMapGo ls p) :
    x < p + (joinLines ls).length := by
  induction ls, p using posMapGo.induct with
  | case1 p => simp [posMapGo] at hx
  | case2 line p =>
    simp only [posMapGo, List.mem_map, List.mem_range] at hx
    obtain ⟨j, hj, rfl⟩ := hx
    have h1 := trimEnd_length_le line
    have h2 : (joinLines [line]).length = line.length := rfl
    omega
  | case3 line l2 rest p ih =>
    have hj : (joinLines (line :: l2 :: rest)).length
        = line.length + 1 + (joinLines (l2 :: rest)).length := by
      rw [joinLines_cons_cons]
      simp only [List.length_append, List.length_cons]
      omega
    rw [posMapGo] at hx
    rcases List.mem_append.mp hx with h1 | h2
    · simp only [List.mem_map, List.mem_range] at h1
      obtain ⟨j, hj2, rfl⟩ := h1
      have := trimEnd_length_le line
      omega
    · rcases List.mem_cons.mp h2 with rfl | h3
      · omega
      · have := ih h3
        omega

theorem posMapGo_pairwise (ls : List Str) (p : Nat) :
    (posMapGo ls p).Pairwise (· < ·) := by
  induction ls, p using posMapGo.induct with
  | case1 p => simp [posMapGo]
  | case2 line p =>
    simp only [posMapGo]
    exact List.Pairwise.map _ (fun a b hab => by omega) (List.pairwise_lt_range _)
  | case3 line l2 rest p ih =>
    rw [posMapGo]
    apply List.pairwise_append.mpr
    refine ⟨List.Pairwise.map _ (fun a b hab => by omega) (List.pairwise_lt_range _), ?_, ?_⟩
    · apply List.pairwise_cons.mpr
      refine ⟨fun x hx => ?_, ih⟩
      have := posMapGo_mem_ge hx
      omega
    · intro a ha b hb
      simp only [List.mem_map, List.mem_range] at ha
      obtain ⟨j, hj, rfl⟩ := ha
      have htle := trimEnd_length_le line
      rcases List.mem_cons.mp hb with rfl | h3
      · omega
      · have := posMapGo_mem_ge h3
        omega

theorem pairwise_get_lt {l : List Nat} (hst : l.Pairwise (· < ·)) {i j : Nat}
    (hij : i < j) (hj : j < l.length) :
    l.get ⟨i, Nat.lt_trans hij hj⟩ < l.get ⟨j, hj⟩ :=
  (List.pairwise_iff_get.mp hst) ⟨i, Nat.lt_trans hij hj⟩ ⟨j, hj⟩ hij

theorem posMap_length (content : Str) :
    (buildNormToOrigPositionMap content).length = (normalizeForFuzzyMatch content).length := by
  rw [buildNormToOrigPositionMap, normalizeForFuzzyMatch, List.length_map]
  exact posMapGo_length _ _

theorem posMap_mem_lt {content : Str} {x : Nat}
    (hx : x ∈ buildNormToOrigPositionMap content) : x < content.length := by
  have := posMapGo_mem_lt hx
  rwa [joinLines_splitLines, Nat.zero_add] at this

/-! ## Supporting lemmas: jsSubstring (C9) -/

theorem jsSubstring_take (s : Str) (i : Nat) (hi : i ≤ s.length) :
    jsSubstring s (.num 0) (some (.num (i : Int))) = s.take i := by
  rw [jsSubstring]
  simp only [JsVal.toIntOrZero]
  have h1 : min (max (0 : Int) 0) (s.length : Int) = 0 := by omega
  have h2 : min (max (i : Int) 0) (s.length : Int) = (i : Int) := by omega
  rw [h1, h2]
  have h3 : min (0 : Int) (i : Int) = 0 := by omega
  have h4 : max (0 : Int) (i : Int) = (i : Int) := by omega
  rw [h3, h4]
  simp [Int.toNat_natCast]

theorem jsSubstring_drop (s : Str) (k : Nat) (hk : k ≤ s.length) :
    jsSubstring s (.num (k : Int)) none = s.drop k := by
  rw [jsSubstring]
  simp only [JsVal.toIntOrZero]
  have h1 : min (max ((k : Int)) 0) (s.length : Int) = (k : Int) := by omega
  have h2 : min (max ((s.length : Int)) 0) (s.length : Int) = (s.length : Int) := by omega
  rw [h1, h2]
  have h3 : min ((k : Int)) ((s.length : Int)) = (k : Int) := by omega
  have h4 : max ((k : Int)) ((s.length : Int)) = (s.length : Int) := by omega
  rw [h3, h4]
  simp [Int.toNat_natCast, List.take_length]

/-! ## Supporting lemmas: fuzzyFindText characterization (C9) -/

theorem fuzzyFindText_contentForReplacement (content oldText : Str) :
    (fuzzyFindText content oldText).contentForReplacement = content := by
  cases h1 : indexOfSub content oldText with
  | some e => simp [fuzzyFindText, h1]
  | none =>
    cases h2 : indexOfSub (normalizeForFuzzyMatch content) (normalizeForFuzzyMatch oldText) with
    | none => simp [fuzzyFindText, h1, h2]
    | some fi => simp [fuzzyFindText, h1, h2]

theorem fuzzyFindText_exact {content oldText : Str} {e : Nat}
    (he : indexOfSub content oldText = some e) :
    fuzzyFindText content oldText =
      { found := true, index := .num e, matchLength := .num oldText.length,
        usedFuzzyMatch := false, contentForReplacement := content } := by
  simp [fuzzyFindText, he]

theorem fuzzyFindText_notFound {content oldText : Str}
    (he : indexOfSub content oldText = none)
    (hf : indexOfSub (normalizeForFuzzyMatch content) (normalizeForFuzzyMatch oldText) = none) :
    (fuzzyFindText content oldText).found = false := by
  simp [fuzzyFindText, he, hf]

theorem fuzzyFindText_fuzzy {content oldText : Str} {fi : Nat}
    (he : indexOfSub content oldText = none)
    (hf : indexOfSub (normalizeForFuzzyMatch content) (normalizeForFuzzyMatch oldText) = some fi) :
    fuzzyFindText content oldText =
      { found := true,
        index := jsIndexVal (buildNormToOrigPositionMap content) fi,
        matchLength := JsVal.sub
          (.num (if 0 < fi + (normalizeForFuzzyMatch oldText).length ∧
                    fi + (normalizeForFuzzyMatch oldText).length ≤
                      (buildNormToOrigPositionMap content).length
                 then ((buildNormToOrigPositionMap content).getD
                        (fi + (normalizeForFuzzyMatch oldText).length - 1) 0 : Int) + 1
                 else (content.length : Int)))
          (jsIndexVal (buildNormToOrigPositionMap content) fi),
        usedFuzzyMatch := true, contentForReplacement := content } := by
  simp [fuzzyFindText, he, hf]

theorem jsIndexVal_of_lt {l : List Nat} {i : Nat} (h : i < l.length) :
    jsIndexVal l i = .num (l.get ⟨i, h⟩) := by
  rw [jsIndexVal, dif_pos h]

theorem getD_eq_get : ∀ (l : List Nat) (n : Nat) (h : n < l.length) (d : Nat),
    l.getD n d = l.get ⟨n, h⟩
  | _ :: _, 0, _, _ => rfl
  | _ :: t, n + 1, h, d => getD_eq_get t n (by simpa using h) d

theorem editNewContent_formula (content oldText newText : Str) :
    editNewContent content oldText newText =
      jsSubstring content (.num 0) (some (fuzzyFindText content oldText).index) ++ newText ++
      jsSubstring content (JsVal.add (fuzzyFindText content oldText).index
        (fuzzyFindText content oldText).matchLength) none := by
  simp only [editNewContent]
  rw [fuzzyFindText_contentForReplacement]

/-! ## Claim C9 -/

/-- C9 (amended): whenever `fuzzyFindText` succeeds and the degenerate
corner is excluded (it is not the case that the old text normalizes to the
empty string while the content also normalizes to the empty string), the
returned `contentForReplacement` is exactly the original content, the match
span is a well-defined pair of numbers within bounds, and the new content
computed by `computeEditDiff`'s replacement expression differs from the
original only inside the span: the prefix before `index` and the suffix
after `index + matchLength` are the original's characters, unchanged and
never fuzzy-normalized. -/
theorem claim_C9_edit_frame (content oldText newText : Str)
    (hfound : (fuzzyFindText content oldText).found = true)
    (hnd : ¬(normalizeForFuzzyMatch oldText = [] ∧ normalizeForFuzzyMatch content = [])) :
    (fuzzyFindText content oldText).contentForReplacement = content ∧
    ∃ i L : Nat,
      (fuzzyFindText content oldText).index = JsVal.num (i : Int) ∧
      (fuzzyFindText content oldText).matchLength = JsVal.num (L : Int) ∧
      i + L ≤ content.length ∧
      editNewContent content oldText newText =
        content.take i ++ newText ++ content.drop (i + L) := by
  refine ⟨fuzzyFindText_contentForReplacement content oldText, ?_⟩
  cases he : indexOfSub content oldText with
  | some e =>
    have hr := fuzzyFindText_exact he
    have hb := indexOfSub_bound he
    have hidx : (fuzzyFindText content oldText).index = JsVal.num ((e : Nat) : Int) := by
      rw [hr]
    have hml : (fuzzyFindText content oldText).matchLength
        = JsVal.num ((oldText.length : Nat) : Int) := by
      rw [hr]
    refine ⟨e, oldText.length, hidx, hml, hb, ?_⟩
    rw [editNewContent_formula, hidx, hml]
    have hadd : JsVal.add (JsVal.num ((e : Nat) : Int)) (JsVal.num ((oldText.length : Nat) : Int))
        = JsVal.num (((e + oldText.length : Nat) : Nat) : Int) := by
      show JsVal.num _ = JsVal.num _
      push_cast
      rfl
    rw [hadd, jsSubstring_take content e (by omega),
      jsSubstring_drop content (e + oldText.length) hb]
  | none =>
    cases hf : indexOfSub (normalizeForFuzzyMatch content) (normalizeForFuzzyMatch oldText) with
    | none =>
      rw [fuzzyFindText_notFound he hf] at hfound
      exact absurd hfound (by decide)
    | some fi =>
      have hr := fuzzyFindText_fuzzy he hf
      have hPMlen : (buildNormToOrigPositionMap content).length
          = (normalizeForFuzzyMatch content).length := posMap_length content
      by_cases hFOe : normalizeForFuzzyMatch oldText = []
      · -- degenerate needle with a nonempty normalized content
        have hFCne : normalizeForFuzzyMatch content ≠ [] := fun hc => hnd ⟨hFOe, hc⟩
        have hfi0 : fi = 0 := by
          rw [hFOe, indexOfSub_nil_needle] at hf
          injection hf with hfi
          omega
        subst hfi0
        have h0 : 0 < (buildNormToOrigPositionMap content).length := by
          rw [hPMlen]
          exact List.length_pos.mpr hFCne
        have hidx : (fuzzyFindText content oldText).index
            = JsVal.num (((buildNormToOrigPositionMap content).get ⟨0, h0⟩ : Nat) : Int) := by
          rw [hr, jsIndexVal_of_lt h0]
        have hp0lt : (buildNormToOrigPositionMap content).get ⟨0, h0⟩ < content.length :=
          posMap_mem_lt (List.get_mem _ _ _)
        have hcond : ¬(0 < 0 + (normalizeForFuzzyMatch oldText).length ∧
            0 + (normalizeForFuzzyMatch oldText).length
              ≤ (buildNormToOrigPositionMap content).length) := by
          rw [hFOe]
          simp
        have hml : (fuzzyFindText content oldText).matchLength
            = JsVal.num (((content.length - (buildNormToOrigPositionMap content).get ⟨0, h0⟩ : Nat) : Nat) : Int) := by
          rw [hr, jsIndexVal_of_lt h0, if_neg hcond]
          show JsVal.num _ = JsVal.num _
          congr 1
          omega
        refine ⟨(buildNormToOrigPositionMap content).get ⟨0, h0⟩,
          content.length - (buildNormToOrigPositionMap content).get ⟨0, h0⟩,
          hidx, hml, by omega, ?_⟩
        rw [editNewContent_formula, hidx, hml]
        have hadd : JsVal.add
            (JsVal.num (((buildNormToOrigPositionMap content).get ⟨0, h0⟩ : Nat) : Int))
            (JsVal.num (((content.length - (buildNormToOrigPositionMap content).get ⟨0, h0⟩ : Nat) : Nat) : Int))
            = JsVal.num ((content.length : Nat) : Int) := by
          show JsVal.num _ = JsVal.num _
          congr 1
          omega
        rw [hadd, jsSubstring_take content _ (by omega),
          jsSubstring_drop content content.length (by omega)]
        have hsum : (buildNormToOrigPositionMap content).get ⟨0, h0⟩ +
            (content.length - (buildNormToOrigPositionMap content).get ⟨0, h0⟩)
            = content.length := by omega
        rw [hsum]
      · -- fuzzy needle nonempty: in-bounds position-map reads
        have hb := indexOfSub_bound hf
        have hFOpos : 0 < (normalizeForFuzzyMatch oldText).length :=
          List.length_pos.mpr hFOe
        have hfilt : fi < (buildNormToOrigPositionMap content).length := by omega
        have hendle : fi + (normalizeForFuzzyMatch oldText).length
            ≤ (buildNormToOrigPositionMap content).length := by omega
        have hend1 : fi + (normalizeForFuzzyMatch oldText).length - 1
            < (buildNormToOrigPositionMap content).length := by omega
        have hcond : 0 < fi + (normalizeForFuzzyMatch oldText).length ∧
            fi + (normalizeForFuzzyMatch oldText).length
              ≤ (buildNormToOrigPositionMap content).length := ⟨by omega, hendle⟩
        have hidx : (fuzzyFindText content oldText).index
            = JsVal.num (((buildNormToOrigPositionMap content).get ⟨fi, hfilt⟩ : Nat) : Int) := by
          rw [hr, jsIndexVal_of_lt hfilt]
        have hable : (buildNormToOrigPositionMap content).get ⟨fi, hfilt⟩
            ≤ (buildNormToOrigPositionMap content).get
                ⟨fi + (normalizeForFuzzyMatch oldText).length - 1, hend1⟩ := by
          rcases Nat.lt_or_ge fi (fi + (normalizeForFuzzyMatch oldText).length - 1) with hlt | hge
          · exact Nat.le_of_lt
              (pairwise_get_lt (posMapGo_pairwise _ _) hlt hend1)
          · have hvals : fi = fi + (normalizeForFuzzyMatch oldText).length - 1 := by omega
            have hfin : (⟨fi, hfilt⟩ : Fin (buildNormToOrigPositionMap content).length)
                = ⟨fi + (normalizeForFuzzyMatch oldText).length - 1, hend1⟩ := by
              apply Fin.ext
              exact hvals
            rw [hfin]
        have hblt : (buildNormToOrigPositionMap content).get
            ⟨fi + (normalizeForFuzzyMatch oldText).length - 1, hend1⟩ < content.length :=
          posMap_mem_lt (List.get_mem _ _ _)
        have hml : (fuzzyFindText content oldText).matchLength
            = JsVal.num ((((buildNormToOrigPositionMap content).get
                  ⟨fi + (normalizeForFuzzyMatch oldText).length - 1, hend1⟩ + 1
                - (buildNormToOrigPositionMap content).get ⟨fi, hfilt⟩ : Nat) : Nat) : Int) := by
          rw [hr, jsIndexVal_of_lt hfilt, if_pos hcond,
            getD_eq_get _ _ hend1]
          show JsVal.num _ = JsVal.num _
          congr 1
          omega
        refine ⟨(buildNormToOrigPositionMap content).get ⟨fi, hfilt⟩,
          (buildNormToOrigPositionMap content).get
              ⟨fi + (normalizeForFuzzyMatch oldText).length - 1, hend1⟩ + 1
            - (buildNormToOrigPositionMap content).get ⟨fi, hfilt⟩,
          hidx, hml, by omega, ?_⟩
        rw [editNewContent_formula, hidx, hml]
        have hadd : JsVal.add
            (JsVal.num (((buildNormToOrigPositionMap content).get ⟨fi, hfilt⟩ : Nat) : Int))
            (JsVal.num ((((buildNormToOrigPositionMap content).get
                  ⟨fi + (normalizeForFuzzyMatch oldText).length - 1, hend1⟩ + 1
                - (buildNormToOrigPositionMap content).get ⟨fi, hfilt⟩ : Nat) : Nat) : Int))
            = JsVal.num ((((buildNormToOrigPositionMap content).get
                  ⟨fi + (normalizeForFuzzyMatch oldText).length - 1, hend1⟩ + 1 : Nat) : Nat) : Int) := by
          show JsVal.num _ = JsVal.num _
          congr 1
          omega
        rw [hadd, jsSubstring_take content _ (by omega),
          jsSubstring_drop content _ (by omega)]
        have hsum : (buildNormToOrigPositionMap content).get ⟨fi, hfilt⟩ +
            ((buildNormToOrigPositionMap content).get
                ⟨fi + (normalizeForFuzzyMatch oldText).length - 1, hend1⟩ + 1
              - (buildNormToOrigPositionMap content).get ⟨fi, hfilt⟩)
            = (buildNormToOrigPositionMap content).get
                ⟨fi + (normalizeForFuzzyMatch oldText).length - 1, hend1⟩ + 1 := by omega
        rw [hsum]

/-- C9 counterexample: on content `" "` (one space) and old text `"\\t"`,
`fuzzyFindText` succeeds via the fuzzy path, but the position map is empty,
so the returned `index` is `undefined` and `matchLength` is `NaN` — the
claimed span `[index, index + matchLength)` does not exist — and the new
content computed by `computeEditDiff` is `" x "`: the one-character
original is duplicated on both sides of the replacement, which no span
decomposition `take i ++ newText ++ drop (i + L)` of the original admits. -/
theorem claim_C9_counterexample :
    (fuzzyFindText [' '] [Char.ofNat 9]).found = true ∧
    (fuzzyFindText [' '] [Char.ofNat 9]).contentForReplacement = [' '] ∧
    (fuzzyFindText [' '] [Char.ofNat 9]).index = JsVal.jsUndefined ∧
    (fuzzyFindText [' '] [Char.ofNat 9]).matchLength = JsVal.nan ∧
    editNewContent [' '] [Char.ofNat 9] ['x'] = [' ', 'x', ' '] ∧
    computeEditDiffCore [' '] [Char.ofNat 9] ['x'] = .ok [' ', 'x', ' '] ∧
    (∀ i : Nat, i < 2 → ∀ L : Nat, L < 2 →
      ([' ', 'x', ' '] : Str) ≠ List.take i [' '] ++ ['x'] ++ List.drop (i + L) [' ']) := by
  refine ⟨rfl, rfl, rfl, rfl, rfl, rfl, ?_⟩
  decide

/-- Witness for the amended C9 at a concrete fuzzy match: the content
holds a Unicode right single quote (U+2019), the old text its ASCII
equivalent. -/
theorem claim_C9_witness :
    ((fuzzyFindText ['a', Char.ofNat 0x2019, 'b'] ['a', Char.ofNat 39, 'b']).found = true ∧
     ¬(normalizeForFuzzyMatch ['a', Char.ofNat 39, 'b'] = [] ∧
       normalizeForFuzzyMatch ['a', Char.ofNat 0x2019, 'b'] = [])) ∧
    ((fuzzyFindText ['a', Char.ofNat 0x2019, 'b'] ['a', Char.ofNat 39, 'b']).contentForReplacement
        = ['a', Char.ofNat 0x2019, 'b'] ∧
      ∃ i L : Nat,
        (fuzzyFindText ['a', Char.ofNat 0x2019, 'b'] ['a', Char.ofNat 39, 'b']).index
          = JsVal.num (i : Int) ∧
        (fuzzyFindText ['a', Char.ofNat 0x2019, 'b'] ['a', Char.ofNat 39, 'b']).matchLength
          = JsVal.num (L : Int) ∧
        i + L ≤ (['a', Char.ofNat 0x2019, 'b'] : Str).length ∧
        editNewContent ['a', Char.ofNat 0x2019, 'b'] ['a', Char.ofNat 39, 'b'] ['X'] =
          List.take i ['a', Char.ofNat 0x2019, 'b'] ++ ['X'] ++
            List.drop (i + L) ['a', Char.ofNat 0x2019, 'b']) :=
  ⟨⟨by decide, by decide⟩,
   claim_C9_edit_frame ['a', Char.ofNat 0x2019, 'b'] ['a', Char.ofNat 39, 'b'] ['X']
     (by decide) (by decide)⟩

/-! ## Supporting lemmas: scheduler grouping (C1, C2, C3, C7) -/

theorem executeSingleToolCall_id (exec : ToolCall → Except String String) (c : ToolCall) :
    (executeSingleToolCall exec c).id = c.id := by
  rw [executeSingleToolCall]
  cases exec c <;> rfl

theorem group_cons_serial {safe : ToolCall → Bool} {c : ToolCall} {rest : List ToolCall}
    (hc : safe c = false) :
    groupToolCallBatches safe (c :: rest) = [c] :: groupToolCallBatches safe rest := by
  simp only [groupToolCallBatches]
  rw [if_neg (by simp [hc])]

theorem group_cons_safe_nil {safe : ToolCall → Bool} {c : ToolCall} {rest : List ToolCall}
    (hc : safe c = true) (hg : groupToolCallBatches safe rest = []) :
    groupToolCallBatches safe (c :: rest) = [[c]] := by
  simp only [groupToolCallBatches, hg]
  rw [if_pos hc]

theorem group_cons_safe_emptyhead {safe : ToolCall → Bool} {c : ToolCall}
    {rest : List ToolCall} {gs2 : List (List ToolCall)}
    (hc : safe c = true) (hg : groupToolCallBatches safe rest = [] :: gs2) :
    groupToolCallBatches safe (c :: rest) = [c] :: [] :: gs2 := by
  simp only [groupToolCallBatches, hg]
  rw [if_pos hc]

theorem group_cons_safe_merge {safe : ToolCall → Bool} {c d : ToolCall}
    {g : List ToolCall} {gs2 : List (List ToolCall)} {rest : List ToolCall}
    (hc : safe c = true) (hd : safe d = true)
    (hg : groupToolCallBatches safe rest = (d :: g) :: gs2) :
    groupToolCallBatches safe (c :: rest) = (c :: d :: g) :: gs2 := by
  simp only [groupToolCallBatches, hg]
  rw [if_pos hc]
  show (if safe d = true then (c :: d :: g) :: gs2 else [c] :: (d :: g) :: gs2)
      = (c :: d :: g) :: gs2
  rw [if_pos hd]

theorem group_cons_safe_nomerge {safe : ToolCall → Bool} {c d : ToolCall}
    {g : List ToolCall} {gs2 : List (List ToolCall)} {rest : List ToolCall}
    (hc : safe c = true) (hd : safe d = false)
    (hg : groupToolCallBatches safe rest = (d :: g) :: gs2) :
    groupToolCallBatches safe (c :: rest) = [c] :: (d :: g) :: gs2 := by
  simp only [groupToolCallBatches, hg]
  rw [if_pos hc]
  show (if safe d = true then (c :: d :: g) :: gs2 else [c] :: (d :: g) :: gs2)
      = [c] :: (d :: g) :: gs2
  rw [if_neg (by simp [hd])]

theorem groupToolCallBatches_flatten (safe : ToolCall → Bool) (calls : List ToolCall) :
    (groupToolCallBatches safe calls).flatten = calls := by
  induction calls with
  | nil => rfl
  | cons c rest ih =>
    by_cases hc : safe c = true
    · cases hg : groupToolCallBatches safe rest with
      | nil =>
        rw [hg] at ih
        simp only [List.flatten_nil] at ih
        rw [group_cons_safe_nil hc hg, ← ih]
        rfl
      | cons g gs2 =>
        rw [hg] at ih
        cases g with
        | nil =>
          rw [group_cons_safe_emptyhead hc hg]
          simp only [List.flatten_cons] at ih ⊢
          simpa using ih
        | cons d g2 =>
          by_cases hd : safe d = true
          · rw [group_cons_safe_merge hc hd hg]
            simp only [List.flatten_cons] at ih ⊢
            simp [ih]
          · rw [group_cons_safe_nomerge hc (by simpa using hd) hg]
            simp only [List.flatten_cons] at ih ⊢
            simp [ih]
    · rw [group_cons_serial (by simpa using hc)]
      simp only [List.flatten_cons, ih]
      rfl

theorem groupToolCallBatches_ne_nil (safe : ToolCall → Bool) (calls : List ToolCall) :
    ∀ g ∈ groupToolCallBatches safe calls, g ≠ [] := by
  induction calls with
  | nil => simp [groupToolCallBatches]
  | cons c rest ih =>
    by_cases hc : safe c = true
    · cases hg : groupToolCallBatches safe rest with
      | nil => rw [group_cons_safe_nil hc hg]; simp
      | cons g gs2 =>
        rw [hg] at ih
        cases g with
        | nil =>
          exact absurd rfl (ih [] (by simp))
        | cons d g2 =>
          by_cases hd : safe d = true
          · rw [group_cons_safe_merge hc hd hg]
            intro g3 hg3
            rcases List.mem_cons.mp hg3 with rfl | hm
            · simp
            · exact ih g3 (List.mem_cons_of_mem _ hm)
          · rw [group_cons_safe_nomerge hc (by simpa using hd) hg]
            intro g3 hg3
            rcases List.mem_cons.mp hg3 with rfl | hm
            · simp
            · exact ih g3 hm
    · rw [group_cons_serial (by simpa using hc)]
      intro g hg
      rcases List.mem_cons.mp hg with rfl | hm
      · simp
      · exact ih g hm

theorem groupToolCallBatches_safety (safe : ToolCall → Bool) (calls : List ToolCall) :
    ∀ g ∈ groupToolCallBatches safe calls,
      allSafeRun safe g = true ∨ ∃ c, g = [c] ∧ safe c = false := by
  induction calls with
  | nil => simp [groupToolCallBatches]
  | cons c rest ih =>
    by_cases hc : safe c = true
    · cases hg : groupToolCallBatches safe rest with
      | nil =>
        rw [group_cons_safe_nil hc hg]
        intro g hgm
        rcases List.mem_singleton.mp hgm with rfl
        exact Or.inl (by simp [allSafeRun, hc])
      | cons g gs2 =>
        rw [hg] at ih
        cases g with
        | nil =>
          exact absurd rfl (groupToolCallBatches_ne_nil safe rest [] (hg ▸ by simp))
        | cons d g2 =>
          by_cases hd : safe d = true
          · rw [group_cons_safe_merge hc hd hg]
            intro g3 hg3
            rcases List.mem_cons.mp hg3 with rfl | hm
            · have hdg := ih (d :: g2) (by simp)
              rcases hdg with hall | ⟨c2, he, hf⟩
              · left
                simp only [allSafeRun, List.all_cons, Bool.and_eq_true] at hall ⊢
                exact ⟨hc, hall⟩
              · rw [List.cons.injEq] at he
                rw [← he.1] at hf
                rw [hf] at hd
                exact absurd hd (by decide)
            · exact ih g3 (List.mem_cons_of_mem _ hm)
          · rw [group_cons_safe_nomerge hc (by simpa using hd) hg]
            intro g3 hg3
            rcases List.mem_cons.mp hg3 with rfl | hm
            · exact Or.inl (by simp [allSafeRun, hc])
            · exact ih g3 hm
    · rw [group_cons_serial (by simpa using hc)]
      intro g hg
      rcases List.mem_cons.mp hg with rfl | hm
      · exact Or.inr ⟨c, rfl, by simpa using hc⟩
      · exact ih g hm

theorem groupToolCallBatches_unsafe_singleton (safe : ToolCall → Bool)
    (calls : List ToolCall) :
    ∀ g ∈ groupToolCallBatches safe calls, ∀ c ∈ g, safe c = false → g = [c] := by
  intro g hg c hc hf
  rcases groupToolCallBatches_safety safe calls g hg with hall | ⟨c2, he, _⟩
  · rw [allSafeRun] at hall
    have := List.all_eq_true.mp hall c hc
    rw [hf] at this
    exact absurd this (by decide)
  · subst he
    rcases List.mem_singleton.mp hc with rfl
    rfl

theorem groupToolCallBatches_maximal (safe : ToolCall → Bool) (calls : List ToolCall) :
    List.Chain' (fun g1 g2 => ¬(allSafeRun safe g1 = true ∧ allSafeRun safe g2 = true))
      (groupToolCallBatches safe calls) := by
  induction calls with
  | nil => simp [groupToolCallBatches]
  | cons c rest ih =>
    by_cases hc : safe c = true
    · cases hg : groupToolCallBatches safe rest with
      | nil => rw [group_cons_safe_nil hc hg]; simp
      | cons g gs2 =>
        rw [hg] at ih
        cases g with
        | nil =>
          exact absurd rfl (groupToolCallBatches_ne_nil safe rest [] (hg ▸ by simp))
        | cons d g2 =>
          by_cases hd : safe d = true
          · rw [group_cons_safe_merge hc hd hg]
            rcases List.chain'_cons'.mp ih with ⟨hrel, htail⟩
            apply List.chain'_cons'.mpr
            refine ⟨fun y hy => ?_, htail⟩
            have := hrel y hy
            intro ⟨ha, hb⟩
            apply this
            refine ⟨?_, hb⟩
            simp only [allSafeRun, List.all_cons, Bool.and_eq_true] at ha
            simp only [allSafeRun, List.all_cons, Bool.and_eq_true]
            exact ha.2
          · rw [group_cons_safe_nomerge hc (by simpa using hd) hg]
            apply List.chain'_cons.mpr
            refine ⟨?_, ih⟩
            intro ⟨_, hb⟩
            simp only [allSafeRun, List.all_cons, Bool.and_eq_true] at hb
            exact hd hb.1
    · cases hg : groupToolCallBatches safe rest with
      | nil =>
        rw [group_cons_serial (by simpa using hc), hg]
        simp
      | cons g gs2 =>
        rw [group_cons_serial (by simpa using hc), hg]
        rw [hg] at ih
        apply List.chain'_cons.mpr
        refine ⟨?_, ih⟩
        intro ⟨ha, _⟩
        simp only [allSafeRun, List.all_cons, Bool.and_eq_true] at ha
        rw [(by simpa using hc : safe c = false)] at ha
        exact absurd ha.1 (by simp)

/-! ## Supporting lemmas: barrier timeline (C2) and cancellation (C7) -/

theorem le_foldr_max {l : List Nat} (a : Nat) : ∀ x ∈ l, x ≤ l.foldr max a := by
  induction l with
  | nil => simp
  | cons y t ih =>
    intro x hx
    rcases List.mem_cons.mp hx with rfl | hm
    · simp [List.foldr_cons, Nat.le_max_left]
    · calc x ≤ t.foldr max a := ih x hm
        _ ≤ max y (t.foldr max a) := Nat.le_max_right _ _

theorem runSchedule_barrier (dur : ToolCall → Nat) (groups : List (List ToolCall)) (t0 : Nat) :
    List.Chain' (fun r1 r2 => ∀ x ∈ r2, ∀ y ∈ r1, y.2.2 ≤ x.2.1)
      (runSchedule dur groups t0) := by
  induction groups generalizing t0 with
  | nil => simp [runSchedule]
  | cons g gs ih =>
    cases gs with
    | nil => simp [runSchedule]
    | cons g2 gs2 =>
      rw [runSchedule]
      rw [show runSchedule dur (g2 :: gs2) ((g.map (fun c => t0 + dur c)).foldr max t0)
          = (g2.map (fun c => (c, (g.map (fun c => t0 + dur c)).foldr max t0,
              (g.map (fun c => t0 + dur c)).foldr max t0 + dur c))) ::
            runSchedule dur gs2
              ((g2.map (fun c => (g.map (fun c => t0 + dur c)).foldr max t0 + dur c)).foldr max
                ((g.map (fun c => t0 + dur c)).foldr max t0)) from rfl]
      apply List.chain'_cons.mpr
      constructor
      · intro x hx y hy
        simp only [List.mem_map] at hx hy
        obtain ⟨cx, _, rfl⟩ := hx
        obtain ⟨cy, hcy, rfl⟩ := hy
        show t0 + dur cy ≤ (g.map (fun c => t0 + dur c)).foldr max t0
        exact le_foldr_max t0 _ (List.mem_map_of_mem _ hcy)
      · exact ih ((g.map (fun c => t0 + dur c)).foldr max t0)

theorem executeRunsCancellable_spec (exec : ToolCall → Except String String) (k : Nat) :
    ∀ (gs : List (List ToolCall)) (i : Nat),
      executeRunsCancellable exec (some k) gs i =
        (((gs.enumFrom i).map (fun p =>
            if p.1 < k then p.2.map (executeSingleToolCall exec)
            else p.2.map cancelledResult)).flatten,
         min (k - i) gs.length) := by
  intro gs
  induction gs with
  | nil => intro i; simp [executeRunsCancellable]
  | cons g gs2 ih =>
    intro i
    rw [executeRunsCancellable]
    by_cases hk : k ≤ i
    · rw [if_pos (by simp [cancelSignalled, hk])]
      have hmap : ∀ gs3 : List (List ToolCall), ∀ j, k ≤ j →
          ((gs3.enumFrom j).map (fun p =>
            if p.1 < k then p.2.map (executeSingleToolCall exec)
            else p.2.map cancelledResult)).flatten = (gs3.flatten).map cancelledResult := by
        intro gs3
        induction gs3 with
        | nil => simp
        | cons g3 gs4 ih3 =>
          intro j hj
          simp only [List.enumFrom, List.map_cons, List.flatten_cons, List.map_append]
          rw [if_neg (by omega), ih3 (j + 1) (by omega)]
      rw [hmap (g :: gs2) i hk]
      have : min (k - i) (g :: gs2).length = 0 := by simp; omega
      rw [this]
    · rw [if_neg (by simp [cancelSignalled]; omega)]
      rw [ih (i + 1)]
      simp only [List.enumFrom, List.map_cons, List.flatten_cons]
      rw [if_pos (by omega)]
      have : min (k - i) (g :: gs2).length = min (k - (i + 1)) gs2.length + 1 := by
        simp only [List.length_cons]
        omega
      rw [this]

/-! ## Supporting lemmas: bash timeout/abort messages (C6, C7) -/

theorem natToDecimalGo_no_colon : ∀ (fuel n : Nat), Char.ofNat 58 ∉ natToDecimalGo fuel n := by
  intro fuel
  induction fuel with
  | zero => intro n; simp [natToDecimalGo]
  | succ f ih =>
    intro n
    rw [natToDecimalGo]
    by_cases hn : n = 0
    · simp [hn]
    · rw [if_neg hn]
      intro hm
      rcases List.mem_append.mp hm with h1 | h2
      · exact ih (n / 10) h1
      · have he := List.mem_singleton.mp h2
        have hd : n % 10 < 10 := Nat.mod_lt _ (by norm_num)
        set d := n % 10 with hdd
        interval_cases d <;> exact absurd he.symm (by decide)

theorem natToDecimal_no_colon (n : Nat) : Char.ofNat 58 ∉ natToDecimal n := by
  rw [natToDecimal]
  by_cases h0 : n = 0
  · rw [if_pos h0]
    decide
  · rw [if_neg h0]
    exact natToDecimalGo_no_colon n n

theorem splitOnChar_no_sep {sep : Char} {l : Str} (h : sep ∉ l) :
    splitOnChar sep l = [l] := by
  induction l with
  | nil => rfl
  | cons c t ih =>
    rw [splitOnChar, if_neg (fun he => h (by simp [he]))]
    rw [ih (fun hm => h (List.mem_cons_of_mem _ hm))]

theorem splitOnChar_cons_ne {sep c : Char} (hne : ¬c = sep) (t : Str) :
    splitOnChar sep (c :: t) =
      (c :: (splitOnChar sep t).headD []) :: (splitOnChar sep t).tail := by
  rw [splitOnChar, if_neg hne]
  cases h : splitOnChar sep t with
  | nil => exact absurd h (splitOnChar_ne_nil sep t)
  | cons l ls => simp

theorem timeout_split (ds : Str) (hds : Char.ofNat 58 ∉ ds) :
    (splitOnChar (Char.ofNat 58) (("timeout:".toList) ++ ds)).getD 1 [] = ds := by
  have hpre : ("timeout:".toList) ++ ds
      = 't' :: 'i' :: 'm' :: 'e' :: 'o' :: 'u' :: 't' :: Char.ofNat 58 :: ds := rfl
  rw [hpre]
  have hsplit : splitOnChar (Char.ofNat 58) (Char.ofNat 58 :: ds)
      = [] :: [ds] := by
    rw [splitOnChar, if_pos rfl, splitOnChar_no_sep hds]
  rw [splitOnChar_cons_ne (by decide), splitOnChar_cons_ne (by decide),
    splitOnChar_cons_ne (by decide), splitOnChar_cons_ne (by decide),
    splitOnChar_cons_ne (by decide), splitOnChar_cons_ne (by decide),
    splitOnChar_cons_ne (by decide), hsplit]
  rfl

theorem isPrefixOf_append (l r : Str) : l.isPrefixOf (l ++ r) = true := by
  induction l with
  | nil => simp [List.isPrefixOf]
  | cons a t ih => simp [List.isPrefixOf, ih]

theorem timeoutMsg_ne_aborted (t : Nat) : ("timeout:" ++ natDecimalStr t) ≠ "aborted" := by
  intro he
  have hdata : ("timeout:" ++ natDecimalStr t).data = "aborted".data :=
    congrArg String.data he
  rw [String.data_append] at hdata
  have hlen := congrArg List.length hdata
  rw [List.length_append] at hlen
  have h1 : ("timeout:".data).length = 8 := rfl
  have h2 : ("aborted".data).length = 7 := rfl
  omega

theorem bashCatch_timeout (output : String) (t : Nat) :
    bashCatchMessage output ("timeout:" ++ natDecimalStr t)
      = some (padOutput output ++ "Command timed out after " ++ natDecimalStr t ++ " seconds") := by
  rw [bashCatchMessage, if_neg (timeoutMsg_ne_aborted t)]
  have htl : ("timeout:" ++ natDecimalStr t).toList = ("timeout:".toList) ++ natToDecimal t := by
    show ("timeout:" ++ natDecimalStr t).data = ("timeout:".data) ++ natToDecimal t
    rw [String.data_append]
    rfl
  rw [if_pos (by rw [htl]; exact isPrefixOf_append _ _)]
  rw [htl, timeout_split (natToDecimal t) (natToDecimal_no_colon t)]
  rfl

theorem bashCatch_aborted (output : String) :
    bashCatchMessage output "aborted" = some (padOutput output ++ "Command aborted") := by
  rw [bashCatchMessage, if_pos rfl]

theorem executeToolCallBatchParallel_ids (exec : ToolCall → Except String String)
    (dur : ToolCall → Nat) (batch : List ToolCall) :
    (executeToolCallBatchParallel exec dur batch).map (fun r => r.id)
      = batch.map (fun c => c.id) := by
  rw [executeToolCallBatchParallel, executeWithCompletion, List.map_map, List.map_map]
  apply List.map_congr_left
  intro c _
  exact executeSingleToolCall_id exec c

theorem executeToolCalls_ids (safe : ToolCall → Bool) (exec : ToolCall → Except String String)
    (dur : ToolCall → Nat) (calls : List ToolCall) :
    (executeToolCalls safe exec dur calls).map (fun r => r.id) = calls.map (fun c => c.id) := by
  rw [executeToolCalls]
  conv_rhs => rw [← groupToolCallBatches_flatten safe calls]
  generalize groupToolCallBatches safe calls = gs
  induction gs with
  | nil => rfl
  | cons g gs2 ih =>
    simp only [List.map_cons, List.flatten_cons, List.map_append, ih]
    rw [executeToolCallBatchParallel_ids]

theorem executeToolCalls_dur_independent (safe : ToolCall → Bool)
    (exec : ToolCall → Except String String) (dur dur2 : ToolCall → Nat)
    (calls : List ToolCall) :
    executeToolCalls safe exec dur calls = executeToolCalls safe exec dur2 calls := by
  rw [executeToolCalls, executeToolCalls]
  congr 1
  apply List.map_congr_left
  intro g _
  rw [executeToolCallBatchParallel, executeToolCallBatchParallel,
    executeWithCompletion, executeWithCompletion, List.map_map, List.map_map]
  rfl

/-! ## Claim C1 -/

/-- C1: the result list the scheduler appends for one model turn is
index-aligned with the call list — the result at position i carries the id
of the call at position i — and is the same list for every assignment of
completion latencies, so the order never depends on completion order.
Concretely, under the spec's latencies [30ms, 10ms, 20ms, 5ms] the four
calls complete in the order [3, 1, 2, 0] while the gathered results stay
in call order [0, 1, 2, 3]. -/
theorem claim_C1_results_in_call_order :
    (∀ (safe : ToolCall → Bool) (exec : ToolCall → Except String String)
        (dur : ToolCall → Nat) (calls : List ToolCall),
      (executeToolCalls safe exec dur calls).map (fun r => r.id)
        = calls.map (fun c => c.id)) ∧
    (∀ (safe : ToolCall → Bool) (exec : ToolCall → Except String String)
        (dur dur2 : ToolCall → Nat) (calls : List ToolCall),
      executeToolCalls safe exec dur calls = executeToolCalls safe exec dur2 calls) ∧
    (completionOrder (executeWithCompletion (fun _ => .ok "") latencyOf latencyBatch)).map
        (fun r => r.id) = [3, 1, 2, 0] ∧
    (executeToolCallBatchParallel (fun _ => .ok "") latencyOf latencyBatch).map
        (fun r => r.id) = [0, 1, 2, 3] := by
  refine ⟨executeToolCalls_ids, executeToolCalls_dur_independent, ?_, ?_⟩
  · decide
  · decide

/-! ## Claim C2 -/

/-- C2: the scheduler partitions every ordered call list into maximal
contiguous runs of concurrency-safe calls with unsafe calls in singleton
runs (the groups concatenate back to the input, are nonempty, are each
either all-safe or an unsafe singleton, and no two adjacent groups are both
all-safe); runs execute left to right with a barrier — in the execution
timeline no call of a later run starts before every call of the preceding
run finished; and on the spec's example
[readA(safe), readB(safe), writeC(unsafe), readD(safe)] the grouping is
[{readA, readB}] then [writeC] then [readD]. -/
theorem claim_C2_grouping_and_barrier :
    (∀ (safe : ToolCall → Bool) (calls : List ToolCall),
      (groupToolCallBatches safe calls).flatten = calls ∧
      (∀ g ∈ groupToolCallBatches safe calls, g ≠ []) ∧
      (∀ g ∈ groupToolCallBatches safe calls,
        allSafeRun safe g = true ∨ ∃ c, g = [c] ∧ safe c = false) ∧
      List.Chain' (fun g1 g2 => ¬(allSafeRun safe g1 = true ∧ allSafeRun safe g2 = true))
        (groupToolCallBatches safe calls)) ∧
    (∀ (safe : ToolCall → Bool) (dur : ToolCall → Nat) (calls : List ToolCall) (t0 : Nat),
      List.Chain' (fun r1 r2 => ∀ x ∈ r2, ∀ y ∈ r1, y.2.2 ≤ x.2.1)
        (runSchedule dur (groupToolCallBatches safe calls) t0)) ∧
    groupToolCallBatches (callSafe exampleRegistry) exampleBatch
      = [[readACall, readBCall], [writeCCall], [readDCall]] := by
  refine ⟨fun safe calls => ⟨groupToolCallBatches_flatten safe calls,
      groupToolCallBatches_ne_nil safe calls, groupToolCallBatches_safety safe calls,
      groupToolCallBatches_maximal safe calls⟩,
    fun safe dur calls t0 => runSchedule_barrier dur _ t0, ?_⟩
  decide

/-! ## Claim C3 -/

/-- C3: a tool descriptor whose side-effect flag is absent is classified as
not concurrency-safe (the fail-closed default); the descriptor returned by
createBashTool carries no flag, so the bash tool is classified unsafe and
every call to it is placed in a singleton run — never executed concurrently
with any other call. -/
theorem claim_C3_bash_serialized :
    toolConcurrencySafe bashToolDecl = false ∧
    bashToolDecl.sideEffects = none ∧
    (∀ t : AgentToolDecl, t.sideEffects = none → toolConcurrencySafe t = false) ∧
    (∀ (reg : List AgentToolDecl) (c : ToolCall) (t : AgentToolDecl),
      lookupTool reg c.toolName = some t → t.sideEffects = none → callSafe reg c = false) ∧
    (∀ (calls : List ToolCall) (g : List ToolCall),
      g ∈ groupToolCallBatches (callSafe exampleRegistry) calls →
      ∀ c ∈ g, c.toolName = "bash" → g = [c]) := by
  refine ⟨rfl, rfl, ?_, ?_, ?_⟩
  · intro t ht
    show (t.sideEffects == some false) = false
    rw [ht]
    rfl
  · intro reg c t hl ht
    rw [callSafe, hl]
    show (t.sideEffects == some false) = false
    rw [ht]
    rfl
  · intro calls g hg c hc hname
    apply groupToolCallBatches_unsafe_singleton _ calls g hg c hc
    rw [callSafe, hname]
    rw [show lookupTool exampleRegistry "bash" = some bashToolDecl from by decide]
    rfl

/-- Witness for C3: a batch of two bash calls is scheduled as singleton
runs; the first group is exactly the first call alone. -/
theorem claim_C3_witness :
    (([⟨0, "bash"⟩] : List ToolCall)
        ∈ groupToolCallBatches (callSafe exampleRegistry) [⟨0, "bash"⟩, ⟨1, "bash"⟩] ∧
      (⟨0, "bash"⟩ : ToolCall) ∈ ([⟨0, "bash"⟩] : List ToolCall) ∧
      (⟨0, "bash"⟩ : ToolCall).toolName = "bash") ∧
    ([⟨0, "bash"⟩] : List ToolCall) = [(⟨0, "bash"⟩ : ToolCall)] :=
  ⟨⟨by decide, by decide, rfl⟩,
   claim_C3_bash_serialized.2.2.2.2 [⟨0, "bash"⟩, ⟨1, "bash"⟩] [⟨0, "bash"⟩]
     (by decide) ⟨0, "bash"⟩ (by decide) rfl⟩

/-! ## Claim C4 -/

/-- C4: when the primary model-based summarization fails, the engine
produces the fallback result: a valid Compaction with strategy `fallback`,
carrying the same readFiles/modifiedFiles tracking as the primary path and
a summary built only from the 200-character prefixes of the window's user
messages and the list of every tool name invoked.  The run makes exactly
one model call (the failed primary attempt) — the fallback itself makes
none, so the result is identical under any other failing model. -/
theorem claim_C4_fallback_compaction (model model2 : CompactionPrep → Option String)
    (prep : CompactionPrep) (hfail : model prep = none) (hfail2 : model2 prep = none) :
    runAutoCompaction model prep = (compactFallback prep, 1) ∧
    runAutoCompaction model prep = runAutoCompaction model2 prep ∧
    (compactFallback prep).strategy = .fallback ∧
    (compactFallback prep).details.readFiles = prep.readFiles ∧
    (compactFallback prep).details.modifiedFiles = prep.modifiedFiles ∧
    (compactFallback prep).summary =
      String.intercalate "
"
          (prep.userMessages.map (fun m => String.mk (m.toList.take fallbackUserPrefixLength)))
        ++ "
Tools used: " ++ String.intercalate ", " prep.toolCallNames := by
  refine ⟨?_, ?_, rfl, rfl, rfl, ?_⟩
  · rw [runAutoCompaction, hfail]
  · rw [runAutoCompaction, runAutoCompaction, hfail, hfail2]
  · rw [compactFallback]

/-- Witness for C4 at a concrete window with an always-failing model. -/
theorem claim_C4_witness :
    ((fun _ : CompactionPrep => (none : Option String))
        { userMessages := ["fix the bug"], toolCallNames := ["read", "bash"],
          readFiles := ["a.ts"], modifiedFiles := ["b.ts"] } = none) ∧
    runAutoCompaction (fun _ => none)
      { userMessages := ["fix the bug"], toolCallNames := ["read", "bash"],
        readFiles := ["a.ts"], modifiedFiles := ["b.ts"] }
      = (compactFallback
          { userMessages := ["fix the bug"], toolCallNames := ["read", "bash"],
            readFiles := ["a.ts"], modifiedFiles := ["b.ts"] }, 1) :=
  ⟨rfl,
   (claim_C4_fallback_compaction (fun _ => none) (fun _ => none)
     { userMessages := ["fix the bug"], toolCallNames := ["read", "bash"],
       readFiles := ["a.ts"], modifiedFiles := ["b.ts"] } rfl rfl).1⟩

/-! ## Claim C5 -/

/-- C5: accepting a user message persists it durably (buffer flushed)
before the state in which the dependent model call is issued, so after a
crash that occurs before any assistant entry is written, reloading the log
shows the user message as the current tip. -/
theorem claim_C5_user_message_durable (st : SessionPersistState) (m : String) :
    LogEntry.user m ∈ (stateAtModelCall st m).persisted ∧
    (stateAtModelCall st m).buffered = [] ∧
    sessionTip (crashReload (persistUserMessage st m)) = some (.user m) := by
  refine ⟨?_, rfl, ?_⟩
  · simp [stateAtModelCall, persistUserMessage]
  · rw [crashReload, persistUserMessage, sessionTip]
    simp only [List.append_nil, ← List.append_assoc]
    exact List.getLast?_concat _

/-! ## Claim C6 -/

/-- C6: when the provided timeout expires (the timer fires and the run was
not aborted), the bash tool's process tree is forcibly terminated
(`killProcessTree`), exec rejects with `"timeout:N"`, the execute wrapper
recovers it into an error outcome reading
`Command timed out after N seconds`, and — fed to the scheduler — it
becomes an ordinary error result, not a crash. -/
theorem claim_C6_timeout_error_result (t : Nat) (env : ExecEnv)
    (ht : 0 < t) (hfire : env.timerFired = true) (hab : env.aborted = false) :
    (defaultBashExec (some t) env).killedTree = true ∧
    (defaultBashExec (some t) env).result = .error ("timeout:" ++ natDecimalStr t) ∧
    (∀ output : String,
      bashExecuteResult (some t) env output =
        .error (padOutput output ++ "Command timed out after " ++ natDecimalStr t ++ " seconds")) ∧
    (∀ (output : String) (c : ToolCall),
      executeSingleToolCall (fun _ => bashExecuteResult (some t) env output) c =
        { id := c.id,
          content := padOutput output ++ "Command timed out after " ++ natDecimalStr t ++ " seconds",
          isError := true }) := by
  have hres : (defaultBashExec (some t) env).result
      = .error ("timeout:" ++ natDecimalStr t) := by
    simp [defaultBashExec, timerArmed, hfire, hab, ht]
  have hexec : ∀ output : String,
      bashExecuteResult (some t) env output =
        .error (padOutput output ++ "Command timed out after " ++ natDecimalStr t ++ " seconds") := by
    intro output
    rw [bashExecuteResult, hres]
    show (match bashCatchMessage output ("timeout:" ++ natDecimalStr t) with
      | some msg => (.error msg : Except String String)
      | none => .error ("timeout:" ++ natDecimalStr t)) = _
    rw [bashCatch_timeout]
  refine ⟨?_, hres, hexec, ?_⟩
  · simp [defaultBashExec, timerArmed, hfire, hab, ht]
  · intro output c
    rw [executeSingleToolCall]
    show (match bashExecuteResult (some t) env output with
      | .ok s => ({ id := c.id, content := s, isError := false } : ToolResultMsg)
      | .error e => { id := c.id, content := e, isError := true }) = _
    rw [hexec output]

/-- Witness for C6: a five-second timeout expiring on a quiet run. -/
theorem claim_C6_witness :
    (0 < 5 ∧ ({ aborted := false, timerFired := true, exitCode := none } : ExecEnv).timerFired = true ∧
      ({ aborted := false, timerFired := true, exitCode := none } : ExecEnv).aborted = false) ∧
    bashExecuteResult (some 5) { aborted := false, timerFired := true, exitCode := none } ""
      = .error "Command timed out after 5 seconds" := by
  refine ⟨⟨by decide, rfl, rfl⟩, ?_⟩
  have h := (claim_C6_timeout_error_result 5
    { aborted := false, timerFired := true, exitCode := none } (by decide) rfl rfl).2.2.1 ""
  rw [h]
  rfl

/-! ## Claim C7 -/

theorem cancellable_ids_go (exec : ToolCall → Except String String) (k : Nat) :
    ∀ (gs : List (List ToolCall)) (i : Nat),
      ((((gs.enumFrom i).map (fun p =>
          if p.1 < k then p.2.map (executeSingleToolCall exec)
          else p.2.map cancelledResult)).flatten).map (fun r => r.id))
        = (gs.flatten).map (fun c => c.id) := by
  intro gs
  induction gs with
  | nil => intro i; rfl
  | cons g gs2 ih =>
    intro i
    simp only [List.enumFrom, List.map_cons, List.flatten_cons, List.map_append, ih]
    congr 1
    by_cases hi : i < k
    · rw [if_pos hi, List.map_map]
      apply List.map_congr_left
      intro c _
      exact executeSingleToolCall_id exec c
    · rw [if_neg hi, List.map_map]
      apply List.map_congr_left
      intro c _
      rfl

/-- C7: on cancellation, the abort signal reaches the bash tool's exec,
which kills the spawned process tree and rejects with `"aborted"`,
recovered by the execute wrapper as a `Command aborted` error outcome; and
the scheduler, once the signal is observed before run `k`, returns the
completed results of the earlier runs, starts no further run, and yields a
`cancelled` error result for every call that never started — with the
whole result list still id-aligned with the call list. -/
theorem claim_C7_cancellation_semantics (timeout : Option Nat) (env : ExecEnv)
    (hab : env.aborted = true) :
    (defaultBashExec timeout env).killedTree = true ∧
    (defaultBashExec timeout env).result = .error "aborted" ∧
    (∀ output : String, bashExecuteResult timeout env output
        = .error (padOutput output ++ "Command aborted")) ∧
    (∀ (safe : ToolCall → Bool) (exec : ToolCall → Except String String)
        (k : Nat) (calls : List ToolCall),
      executeToolCallsCancellable safe exec (some k) calls =
        ((((groupToolCallBatches safe calls).enumFrom 0).map (fun p =>
            if p.1 < k then p.2.map (executeSingleToolCall exec)
            else p.2.map cancelledResult)).flatten,
          min k (groupToolCallBatches safe calls).length) ∧
      (executeToolCallsCancellable safe exec (some k) calls).1.map (fun r => r.id)
        = calls.map (fun c => c.id) ∧
      (executeToolCallsCancellable safe exec (some k) calls).2 ≤ k) := by
  have hres : (defaultBashExec timeout env).result = .error "aborted" := by
    simp [defaultBashExec, hab]
  refine ⟨by simp [defaultBashExec, hab], hres, ?_, ?_⟩
  · intro output
    rw [bashExecuteResult, hres]
    show (match bashCatchMessage output "aborted" with
      | some msg => (.error msg : Except String String)
      | none => .error "aborted") = _
    rw [bashCatch_aborted]
  · intro safe exec k calls
    have hspec := executeRunsCancellable_spec exec k (groupToolCallBatches safe calls) 0
    rw [Nat.sub_zero] at hspec
    refine ⟨by rw [executeToolCallsCancellable, hspec], ?_, ?_⟩
    · rw [executeToolCallsCancellable, hspec]
      show ((((groupToolCallBatches safe calls).enumFrom 0).map _).flatten).map _ = _
      rw [cancellable_ids_go, groupToolCallBatches_flatten]
    · rw [executeToolCallsCancellable, hspec]
      show min k (groupToolCallBatches safe calls).length ≤ k
      omega

/-- Witness for C7: an aborted bash run reports `Command aborted`, and a
two-call unsafe batch cancelled before run 1 executes only the first call,
with the second reported as a `cancelled` error result. -/
theorem claim_C7_witness :
    ({ aborted := true, timerFired := false, exitCode := none } : ExecEnv).aborted = true ∧
    bashExecuteResult none { aborted := true, timerFired := false, exitCode := none } ""
      = .error "Command aborted" ∧
    (executeToolCallsCancellable (callSafe exampleRegistry) (fun _ => .ok "done") (some 1)
        [⟨0, "bash"⟩, ⟨1, "bash"⟩]).1.map (fun r => r.id) = [0, 1] := by
  have h := claim_C7_cancellation_semantics none
    { aborted := true, timerFired := false, exitCode := none } rfl
  refine ⟨rfl, ?_, ?_⟩
  · rw [h.2.2.1 ""]
    rfl
  · rw [(h.2.2.2 (callSafe exampleRegistry) (fun _ => .ok "done") 1
      [⟨0, "bash"⟩, ⟨1, "bash"⟩]).2.1]
    rfl

/-! ## Claim C8 -/

theorem strArr_all_string (l : List String) : (l.map Jx.str).all isStringJx = true := by
  induction l with
  | nil => rfl
  | cons a t ih => simp only [List.map_cons, List.all_cons, ih, isStringJx, Bool.and_true]

theorem fieldIsStringArray_strArr {j : Jx} {n : String} {l : List String}
    (h : jxField j n = some (strArr l)) : fieldIsStringArray j n = true := by
  rw [fieldIsStringArray, h]
  show (l.map Jx.str).all isStringJx = true
  exact strArr_all_string l

theorem fieldIsStringArray_none {j : Jx} {n : String}
    (h : jxField j n = none) : fieldIsStringArray j n = true := by
  rw [fieldIsStringArray, h]

theorem detailsToJson_readFiles (d : CompactionDetails) :
    jxField (detailsToJson d) "readFiles" = some (strArr d.readFiles) := by
  rcases d with ⟨rf, mf, pt, ds⟩
  cases pt <;> cases ds <;> rfl

theorem detailsToJson_modifiedFiles (d : CompactionDetails) :
    jxField (detailsToJson d) "modifiedFiles" = some (strArr d.modifiedFiles) := by
  rcases d with ⟨rf, mf, pt, ds⟩
  cases pt <;> cases ds <;> rfl

theorem detailsToJson_pendingTasks (d : CompactionDetails) :
    jxField (detailsToJson d) "pendingTasks" = d.pendingTasks.map strArr := by
  rcases d with ⟨rf, mf, pt, ds⟩
  cases pt <;> cases ds <;> rfl

theorem detailsToJson_decisions (d : CompactionDetails) :
    jxField (detailsToJson d) "decisions" = d.decisions.map strArr := by
  rcases d with ⟨rf, mf, pt, ds⟩
  cases pt <;> cases ds <;> rfl

theorem detailsToJson_shape (d : CompactionDetails) :
    detailsShapeOk (detailsToJson d) = true := by
  have h3 : fieldIsStringArray (detailsToJson d) "pendingTasks" = true := by
    cases hpt : d.pendingTasks with
    | none => exact fieldIsStringArray_none (by rw [detailsToJson_pendingTasks, hpt]; rfl)
    | some p => exact fieldIsStringArray_strArr (by rw [detailsToJson_pendingTasks, hpt]; rfl)
  have h4 : fieldIsStringArray (detailsToJson d) "decisions" = true := by
    cases hds : d.decisions with
    | none => exact fieldIsStringArray_none (by rw [detailsToJson_decisions, hds]; rfl)
    | some p => exact fieldIsStringArray_strArr (by rw [detailsToJson_decisions, hds]; rfl)
  rw [detailsShapeOk, fieldIsStringArray_strArr (detailsToJson_readFiles d),
    fieldIsStringArray_strArr (detailsToJson_modifiedFiles d), h3, h4]
  rfl

/-- C8 counterexample: at a concrete details value produced in the
implemented shape, the persisted `decisions` array holds plain strings, so
the claim's requirement that every element be a `{description, rationale}`
record fails; and the real search-text builder of session-search.ts
consumes exactly those strings, comma-joined. -/
theorem claim_C8_counterexample :
    decisionsAllRecords (detailsToJson
      { readFiles := ["src/a.ts"], modifiedFiles := ["src/b.ts"],
        pendingTasks := some ["write tests"],
        decisions := some ["use fallback on llm error"] }) = false ∧
    jxField (detailsToJson
      { readFiles := ["src/a.ts"], modifiedFiles := ["src/b.ts"],
        pendingTasks := some ["write tests"],
        decisions := some ["use fallback on llm error"] }) "decisions"
      = some (.arr [.str "use fallback on llm error"]) ∧
    buildCompactionSearchText
      { id := "e1", timestamp := "t1", summary := "Session summary",
        details := some
          { readFiles := ["src/a.ts"], modifiedFiles := ["src/b.ts"],
            pendingTasks := some ["write tests"],
            decisions := some ["use fallback on llm error"] } }
      = "Session summary\nModified files: src/b.ts\nRead files: src/a.ts\nPending tasks: write tests\nDecisions: use fallback on llm error" := by
  refine ⟨rfl, rfl, ?_⟩
  decide

/-- C8 (amended): every persisted Compaction details value conforms to the
implemented shape — `readFiles` and `modifiedFiles` are arrays of path
strings and `pendingTasks`/`decisions`, when present, are arrays of plain
strings (not records) — and both the primary marker-parsing path and the
fallback path of the compaction engine produce details of this shape. -/
theorem claim_C8_details_shape :
    (∀ d : CompactionDetails, detailsShapeOk (detailsToJson d) = true) ∧
    (∀ (model : CompactionPrep → Option String) (prep : CompactionPrep),
      detailsShapeOk (detailsToJson (runAutoCompaction model prep).1.details) = true) := by
  refine ⟨detailsToJson_shape, ?_⟩
  intro model prep
  exact detailsToJson_shape _

/-- Witness for C2 at the spec's example batch: the first group of the
scenario grouping, with its nonemptiness and all-safe classification. -/
theorem claim_C2_witness :
    ([readACall, readBCall] ∈ groupToolCallBatches (callSafe exampleRegistry) exampleBatch) ∧
    ([readACall, readBCall] ≠ ([] : List ToolCall) ∧
      (allSafeRun (callSafe exampleRegistry) [readACall, readBCall] = true ∨
        ∃ c, ([readACall, readBCall] : List ToolCall) = [c] ∧
          callSafe exampleRegistry c = false)) :=
  ⟨by decide,
   ⟨(claim_C2_grouping_and_barrier.1 (callSafe exampleRegistry) exampleBatch).2.1
      [readACall, readBCall] (by decide),
    (claim_C2_grouping_and_barrier.1 (callSafe exampleRegistry) exampleBatch).2.2.1
      [readACall, readBCall] (by decide)⟩⟩

end PiMono